import Mathlib

/-!
Huffman table (`src/src/huffman_table.h`).

A shallow embedding of `Huffman::HuffmanTable<T>`: the binary trie of
`TreeNode`s owned by `root_`, the encoding table `encTable_`, and the
operations `addElement`, `encode`, `decode`, `clear` and `findCode`.

* A value of type `TreeNode T` stands for a `TreeNode *`: `null` is `NULL`,
  `node left right element` is a pointer to an owned node with these fields.
  Every node is owned by exactly one parent (or by `root_`), so the heap
  reachable from `root_` is a tree and in-place updates along a path are
  rebuilt functionally.
* `QVector<bool>` and `QVector<T>` are lists; `QHash<T, Code>` is an
  association list with at most one entry per key.
* `new TreeNode` always succeeds (the `std::bad_alloc` handler is not
  modelled).
* `Huffman::str2code` and `Huffman::code2str` (`src/src/huffman_aux.cpp`) are
  embedded with `QString` as a list of characters.
* `decodeChecked` is `decode` once more with the loop index and with every
  dereference of `cur` made observable (`Checked.fault` on `NULL`); it agrees
  with `decode` on every input (`decodeChecked_returned`).
* The `while` loop of `decode` does not terminate on every table, so its
  embedding `decodeLoop` takes the number of iterations it may run and
  answers `none` when that number is exhausted.
-/

namespace Huffman

/-- The bit vector `typedef QVector<bool> Code`. -/
abbrev Code := List Bool

/-- A `TreeNode *`: `null` is `NULL`, `node left right element` points to a
node with the three fields of `struct TreeNode`. -/
inductive TreeNode (T : Type) where
  | null : TreeNode T
  | node (left right : TreeNode T) (element : T) : TreeNode T
  deriving DecidableEq

/-- The test `ptr == NULL`. -/
def TreeNode.isNull {T : Type} : TreeNode T → Bool
  | .null => true
  | .node _ _ _ => false

/-- The method `TreeNode::isLeaf`: `left == NULL && right == NULL`. It is only
called on non-null pointers; on `null` the embedding answers `false`. -/
def TreeNode.isLeaf {T : Type} : TreeNode T → Bool
  | .null => false
  | .node left right _ => left.isNull && right.isNull

/-- The constructor `TreeNode () : left (NULL), right (NULL), element ()`. -/
def newNode {T : Type} [Inhabited T] : TreeNode T :=
  .node .null .null default

/-- The statement `if (!ptr) ptr = new TreeNode;`, giving the new value of
`ptr`. -/
def orNew {T : Type} [Inhabited T] : TreeNode T → TreeNode T
  | .null => newNode
  | .node left right element => .node left right element

/-- The expression `bit ? cur->right : cur->left` (on `NULL`, which the source
never dereferences, the embedding answers `null`). -/
def TreeNode.child {T : Type} : TreeNode T → Bool → TreeNode T
  | .null, _ => .null
  | .node left right _, bit => if bit then right else left

/-- The node reached from `cur` by following the bits of `path`
(`null` once a missing child is taken). -/
def subtree {T : Type} : TreeNode T → Code → TreeNode T
  | cur, [] => cur
  | cur, bit :: rest => subtree (cur.child bit) rest

/-- The `while (position < code.size ())` loop of `addElement`, started at a
non-null `cur`: the tree hanging from `cur` once the loop has created every
missing node along the remaining bits of `code`. -/
def grow {T : Type} [Inhabited T] : Code → TreeNode T → TreeNode T
  | [], cur => cur
  | _ :: _, .null => .null
  | bit :: rest, .node left right element =>
    if bit then .node left (grow rest (orNew right)) element
    else .node (grow rest (orNew left)) right element

/-- The assignment `cur->element = element` of `addElement`, where `cur` is the
node at the end of `code`: the tree with that one field replaced. -/
def setElement {T : Type} (x : T) : Code → TreeNode T → TreeNode T
  | _, .null => .null
  | [], .node left right _ => .node left right x
  | bit :: rest, .node left right element =>
    if bit then .node left (setElement x rest right) element
    else .node (setElement x rest left) right element

/-- The hash table `typedef QHash<T, Code> EncodingTable`. -/
abbrev EncodingTable (T : Type) := List (T × Code)

/-- The lookup `encTable_.find (element)`; `none` stands for `end ()`. -/
def EncodingTable.find {T : Type} [DecidableEq T] :
    EncodingTable T → T → Option Code
  | [], _ => none
  | (key, code) :: rest, element =>
    if key = element then some code else EncodingTable.find rest element

/-- The test `encTable_.contains (element)`. -/
def EncodingTable.contains {T : Type} [DecidableEq T]
    (table : EncodingTable T) (element : T) : Bool :=
  (EncodingTable.find table element).isSome

/-- The assignment `encTable_[element] = code`: the entry of `element` is
replaced, or added when there is none. -/
def EncodingTable.set {T : Type} [DecidableEq T]
    (table : EncodingTable T) (element : T) (code : Code) : EncodingTable T :=
  (element, code) :: table.filter (fun entry => !decide (entry.1 = element))

/-- The data members of `HuffmanTable<T>`. -/
structure HuffmanTable (T : Type) where
  root_ : TreeNode T
  encTable_ : EncodingTable T
  deriving DecidableEq

/-- The constructor `HuffmanTable ()`: `root_ (NULL)` and an empty hash. -/
def HuffmanTable.empty {T : Type} : HuffmanTable T :=
  { root_ := .null, encTable_ := [] }

/-- The method `HuffmanTable<T>::addElement`: the returned `int` and the table
after the call. -/
def addElement {T : Type} [DecidableEq T] [Inhabited T]
    (t : HuffmanTable T) (element : T) (code : Code) : Int × HuffmanTable T :=
  let root := orNew t.root_
  if EncodingTable.contains t.encTable_ element then
    (-1, { root_ := root, encTable_ := t.encTable_ })
  else
    let enc := EncodingTable.set t.encTable_ element code
    let grown := grow code root
    let cur := subtree grown code
    if !cur.isLeaf then
      (-2, { root_ := grown, encTable_ := enc })
    else
      (0, { root_ := setElement element code grown, encTable_ := enc })

/-- The method `HuffmanTable<T>::findCode`: the registered code, or the empty
`Code ()` when the element is not in `encTable_`. -/
def findCode {T : Type} [DecidableEq T] (t : HuffmanTable T) (element : T) : Code :=
  match EncodingTable.find t.encTable_ element with
  | none => []
  | some code => code

/-- The `for` loop of `encode` over the rest of the message, with the current
values of `res` and `*ok`. -/
def encodeLoop {T : Type} [DecidableEq T] (t : HuffmanTable T) :
    List T → Code → Bool → Code × Bool
  | [], res, ok => (res, ok)
  | x :: rest, res, ok =>
    let code := findCode t x
    if code.length = 0 then (res, false)
    else encodeLoop t rest (res ++ code) ok

/-- The method `HuffmanTable<T>::encode`: the returned code and the final
value of `*ok`, which the method sets to `false` before its loop. -/
def encode {T : Type} [DecidableEq T] (t : HuffmanTable T) (message : List T) :
    Code × Bool :=
  encodeLoop t message [] false

/-- The `while (i < data.size ())` loop of `decode`: `data` holds the bits from
position `i` on, `fuel` bounds the number of iterations; the result is the
final `cur` and `res`, or `none` when `fuel` iterations did not end the loop. -/
def decodeLoop {T : Type} (root : TreeNode T) :
    Nat → TreeNode T → Code → List T → Option (TreeNode T × List T)
  | _, cur, [], res => some (cur, res)
  | 0, _, _ :: _, _ => none
  | _ + 1, .null, _ :: _, res => some (.null, res)
  | fuel + 1, .node left right element, bit :: rest, res =>
    if (TreeNode.node left right element).isLeaf then
      decodeLoop root fuel root (bit :: rest) (res ++ [element])
    else
      decodeLoop root fuel ((TreeNode.node left right element).child bit) rest res

/-- The code of `decode` after its loop: the test
`cur == NULL || !cur->isLeaf ()` and the last `push_back`. -/
def decodeFinish {T : Type} : TreeNode T × List T → List T × Bool
  | (.null, res) => (res, false)
  | (.node left right element, res) =>
    if !(TreeNode.node left right element).isLeaf then (res, false)
    else (res ++ [element], true)

/-- The method `HuffmanTable<T>::decode` run for at most `fuel` loop
iterations: the returned vector and the final value of `*ok`. -/
def decode {T : Type} (fuel : Nat) (t : HuffmanTable T) (data : Code) :
    Option (List T × Bool) :=
  match t.root_ with
  | .null => some ([], false)
  | .node left right element =>
    (decodeLoop (.node left right element) fuel (.node left right element) data []).map
      decodeFinish

/-- The method `HuffmanTable<T>::clear`: the tree is deleted and `root_` set to
`NULL`; `encTable_` is not touched. -/
def clear {T : Type} (t : HuffmanTable T) : HuffmanTable T :=
  { root_ := .null, encTable_ := t.encTable_ }

/-- The table after the calls `addElement (p.1, p.2)` for the pairs `p` of a
list, in order, whatever they return. -/
def addAll {T : Type} [DecidableEq T] [Inhabited T]
    (t : HuffmanTable T) (pairs : List (T × Code)) : HuffmanTable T :=
  pairs.foldl (fun acc p => (addElement acc p.1 p.2).2) t

/-- A call of one of the two mutating methods. -/
inductive Call (T : Type) where
  | add (element : T) (code : Code) : Call T
  | clear : Call T

/-- The table after one call. -/
def Call.apply {T : Type} [DecidableEq T] [Inhabited T]
    (t : HuffmanTable T) : Call T → HuffmanTable T
  | .add element code => (addElement t element code).2
  | .clear => Huffman.clear t

/-- The table after a sequence of calls. -/
def runCalls {T : Type} [DecidableEq T] [Inhabited T]
    (t : HuffmanTable T) (calls : List (Call T)) : HuffmanTable T :=
  calls.foldl Call.apply t

/-- The elements are pairwise distinct. -/
def DistinctElements {T : Type} (pairs : List (T × Code)) : Prop :=
  pairs.Pairwise (fun p q => p.1 ≠ q.1)

/-- No codeword of the list is an initial segment of the codeword of another
entry (in particular no two entries share a codeword). -/
def PrefixFree {T : Type} (pairs : List (T × Code)) : Prop :=
  pairs.Pairwise (fun p q => ¬ p.2 <+: q.2 ∧ ¬ q.2 <+: p.2)

/-- Every codeword has at least one bit. -/
def NonEmptyCodes {T : Type} (pairs : List (T × Code)) : Prop :=
  ∀ p ∈ pairs, p.2 ≠ []

/-- The concatenation, in message order, of the registered codewords. -/
def codeConcat {T : Type} [DecidableEq T] (t : HuffmanTable T) (m : List T) : Code :=
  (m.map (findCode t)).flatten

/-- The table of `main.cpp`: `2 -> 0`, `3 -> 10`, `4 -> 11`. -/
def mainPairs : List (Nat × Code) :=
  [(2, [false]), (3, [true, false]), (4, [true, true])]

/-- The table built by the three `addElement` calls of `main.cpp`. -/
def mainTable : HuffmanTable Nat :=
  addAll HuffmanTable.empty mainPairs

/-- The bits of a string of `0` and `1` digits, as `str2code` reads them. -/
def bits (digits : List Nat) : Code :=
  digits.map (fun d => decide (d = 1))

/-- A table with one element whose codeword has no bits: `7 -> ""`. -/
def emptyCodePairs : List (Nat × Code) :=
  [(7, [])]

/-- The table after the single call `addElement (2, "0")` on a fresh table. -/
def oneTable : HuffmanTable Nat :=
  (addElement HuffmanTable.empty 2 [false]).2

/-- The values returned by the calls `addElement (p.1, p.2)` for the pairs `p`
of a list, made in order on the table `t`. -/
def addAllCodes {T : Type} [DecidableEq T] [Inhabited T] :
    HuffmanTable T → List (T × Code) → List Int
  | _, [] => []
  | t, p :: rest =>
    (addElement t p.1 p.2).1 :: addAllCodes (addElement t p.1 p.2).2 rest

/-- The elements held at the leaves of the trie hanging from a pointer, from
left to right. -/
def leafElements {T : Type} : TreeNode T → List T
  | .null => []
  | .node left right element =>
    if (TreeNode.node left right element).isLeaf then [element]
    else leafElements left ++ leafElements right

/-- The keys of the encoding table. -/
def HuffmanTable.keys {T : Type} (t : HuffmanTable T) : List T :=
  t.encTable_.map Prod.fst

/-- The table after the single call `addElement (7, "")` on a fresh table: its
root is a leaf. -/
def rootLeafTable : HuffmanTable Nat :=
  (addElement HuffmanTable.empty 7 []).2

/-- The `for` loop of `Huffman::str2code` (`src/src/huffman_aux.cpp`) from
position `i` on: `str` holds the characters from `i` on, `code` is the vector
built so far; the result is the returned vector and the final `*ok`. -/
def str2codeLoop : List Char → Nat → Code → Code × Bool
  | [], _, code => (code, true)
  | c :: rest, i, code =>
    if c = '1' then str2codeLoop rest (i + 1) (code.set i true)
    else if c ≠ '0' then (code, false)
    else str2codeLoop rest (i + 1) code

/-- The function `Huffman::str2code`: `*ok = true`, then the loop over the
vector `Code code (str.size ())`, which starts with `str.size ()` bits
`false`. -/
def str2code (str : List Char) : Code × Bool :=
  str2codeLoop str 0 (List.replicate str.length false)

/-- The function `Huffman::code2str`: one character per bit. -/
def code2str (code : Code) : List Char :=
  code.map (fun bit => if bit then '1' else '0')

/-- Every leaf of the trie below the root holds an element that is a key of
the encoding table. -/
def LeavesRegistered {T : Type} [DecidableEq T] (t : HuffmanTable T) : Prop :=
  ∀ (q : Code) (l r : TreeNode T) (x : T), q ≠ [] →
    subtree t.root_ q = .node l r x → (TreeNode.node l r x).isLeaf = true →
    EncodingTable.contains t.encTable_ x = true

/-- The outcome of code that dereferences pointers: `fault` when a `NULL`
pointer was dereferenced, which the source leaves undefined, and `value a`
when every dereferenced pointer was valid. -/
inductive Checked (α : Type) where
  | fault : Checked α
  | value (a : α) : Checked α
  deriving DecidableEq

/-- A dereference `cur->...`: the three fields of the node `cur` points to, or
`fault` when `cur` is `NULL`. -/
def TreeNode.deref {T : Type} : TreeNode T → Checked (TreeNode T × TreeNode T × T)
  | .null => .fault
  | .node left right element => .value (left, right, element)

/-- The `while (i < data.size ())` loop of `decode` once more, statement by
statement, with what `decodeLoop` leaves out: the index `i` (`data` holds the
bits from position `i` on) and every dereference of `cur`, which goes through
`TreeNode.deref`. The test `if (cur == NULL) break;` comes first; then
`cur->isLeaf ()`, `cur->element` and `cur->right` / `cur->left` read the node.
The result is the final `i`, `cur` and `res`, or `fault`. -/
def decodeLoopChecked {T : Type} (root : TreeNode T) :
    Nat → Nat → TreeNode T → Code → List T →
      Option (Checked (Nat × TreeNode T × List T))
  | _, i, cur, [], res => some (.value (i, cur, res))
  | 0, _, _, _ :: _, _ => none
  | fuel + 1, i, cur, bit :: rest, res =>
    if cur.isNull then some (.value (i, cur, res))
    else
      match cur.deref with
      | .fault => some .fault
      | .value (left, right, element) =>
        if left.isNull && right.isNull then
          decodeLoopChecked root fuel i root (bit :: rest) (res ++ [element])
        else
          decodeLoopChecked root fuel (i + 1) (if bit then right else left) rest res

/-- The code of `decode` after its loop with its dereferences: in
`cur == NULL || !cur->isLeaf ()` the node is read only when `cur` is not
`NULL`. The result is the returned vector, `*ok` and the final `i`. -/
def decodeFinishChecked {T : Type} :
    Nat × TreeNode T × List T → Checked (List T × Bool × Nat)
  | (i, cur, res) =>
    if cur.isNull then .value (res, false, i)
    else
      match cur.deref with
      | .fault => .fault
      | .value (left, right, element) =>
        if !(left.isNull && right.isNull) then .value (res, false, i)
        else .value (res ++ [element], true, i)

/-- The method `decode` with its dereferences and its index: the returned
vector, `*ok` and the number `i` of bits the loop has consumed, or `fault` when
a `NULL` pointer was dereferenced; `none` when `fuel` iterations did not end
the loop. -/
def decodeChecked {T : Type} (fuel : Nat) (t : HuffmanTable T) (data : Code) :
    Option (Checked (List T × Bool × Nat)) :=
  if t.root_.isNull then some (.value ([], false, 0))
  else
    match decodeLoopChecked t.root_ fuel 0 t.root_ data [] with
    | none => none
    | some .fault => some .fault
    | some (.value state) => some (decodeFinishChecked state)

/-- What `decode` returns, read off a checked run: the vector and `*ok`;
`none` for a run that dereferenced `NULL`. -/
def Checked.returned {T : Type} : Checked (List T × Bool × Nat) → Option (List T × Bool)
  | .fault => none
  | .value (res, ok, _) => some (res, ok)

/-- The table `t` holds exactly the pairs of `pairs`: each codeword leads to a
leaf with its element, every node of the trie lies on the way to one of the
codewords, and `encTable_` maps each element to its codeword and nothing
else. -/
structure Built {T : Type} [DecidableEq T] (t : HuffmanTable T)
    (pairs : List (T × Code)) : Prop where
  leafAt : ∀ p ∈ pairs, subtree t.root_ p.2 = .node .null .null p.1
  onPath : ∀ q, subtree t.root_ q ≠ .null → q = [] ∨ ∃ p ∈ pairs, q <+: p.2
  findIn : ∀ p ∈ pairs, EncodingTable.find t.encTable_ p.1 = some p.2
  findOut : ∀ e, (∀ p ∈ pairs, p.1 ≠ e) → EncodingTable.find t.encTable_ e = none

/-! ## Paths in the trie -/

theorem subtree_null {T : Type} (path : Code) :
    subtree (TreeNode.null : TreeNode T) path = .null := by
  induction path with
  | nil => rfl
  | cons bit rest ih => simpa [subtree, TreeNode.child] using ih

theorem subtree_append {T : Type} (cur : TreeNode T) (p q : Code) :
    subtree cur (p ++ q) = subtree (subtree cur p) q := by
  induction p generalizing cur with
  | nil => rfl
  | cons bit rest ih => simpa [subtree] using ih (cur.child bit)

theorem subtree_orNew_cons {T : Type} [Inhabited T] (cur : TreeNode T)
    (bit : Bool) (rest : Code) :
    subtree (orNew cur) (bit :: rest) = subtree cur (bit :: rest) := by
  cases cur with
  | null => cases bit <;> simp [orNew, newNode, subtree, TreeNode.child, subtree_null]
  | node l r e => rfl

theorem orNew_ne_null {T : Type} [Inhabited T] (cur : TreeNode T) :
    orNew cur ≠ .null := by
  cases cur <;> simp [orNew, newNode]

theorem orNew_of_ne_null {T : Type} [Inhabited T] {cur : TreeNode T}
    (h : cur ≠ .null) : orNew cur = cur := by
  cases cur with
  | null => exact absurd rfl h
  | node l r e => rfl

theorem child_orNew {T : Type} [Inhabited T] (cur : TreeNode T) (bit : Bool) :
    (orNew cur).child bit = cur.child bit := by
  cases cur with
  | null => cases bit <;> rfl
  | node l r e => rfl

/-- The loop of `addElement` at one bit: the node keeps its other child and its
element, and the loop goes on in the (possibly new) child taken. -/
theorem grow_cons_orNew {T : Type} [Inhabited T] (bit : Bool) (rest : Code)
    (cur : TreeNode T) :
    ∃ l r e, orNew cur = .node l r e ∧
      grow (bit :: rest) (orNew cur) =
        (if bit then .node l (grow rest (orNew r)) e
         else .node (grow rest (orNew l)) r e) := by
  cases cur with
  | null => exact ⟨.null, .null, default, rfl, rfl⟩
  | node l r e => exact ⟨l, r, e, rfl, rfl⟩

theorem subtree_grow_self {T : Type} [Inhabited T] (code : Code) (cur : TreeNode T)
    (h : subtree cur code = .null) :
    subtree (grow code (orNew cur)) code = newNode := by
  induction code generalizing cur with
  | nil =>
    have : cur = .null := h
    subst this
    rfl
  | cons bit rest ih =>
    obtain ⟨l, r, e, hcur, hgrow⟩ := grow_cons_orNew bit rest cur
    have hchild : subtree ((orNew cur).child bit) rest = .null := by
      rw [child_orNew]; exact h
    rw [hgrow]
    rw [hcur] at hchild
    cases bit
    · simpa [subtree, TreeNode.child] using ih l (by simpa [TreeNode.child] using hchild)
    · simpa [subtree, TreeNode.child] using ih r (by simpa [TreeNode.child] using hchild)

theorem subtree_grow_off {T : Type} [Inhabited T] (code q : Code) (cur : TreeNode T)
    (h : ¬ q <+: code) :
    subtree (grow code (orNew cur)) q = subtree cur q := by
  induction code generalizing cur q with
  | nil =>
    cases q with
    | nil => exact absurd (List.prefix_refl _) h
    | cons b qs => simpa [grow] using subtree_orNew_cons cur b qs
  | cons bit rest ih =>
    cases q with
    | nil => exact absurd (List.nil_prefix) h
    | cons b qs =>
      obtain ⟨l, r, e, hcur, hgrow⟩ := grow_cons_orNew bit rest cur
      rw [hgrow, ← subtree_orNew_cons cur b qs, hcur]
      by_cases hb : b = bit
      · subst hb
        have hq : ¬ qs <+: rest := fun hp => h (by simpa using hp)
        cases b
        · simpa [subtree, TreeNode.child] using ih qs l hq
        · simpa [subtree, TreeNode.child] using ih qs r hq
      · cases b <;> cases bit <;> simp_all [subtree, TreeNode.child]

theorem grow_of_subtree_ne_null {T : Type} [Inhabited T] (code : Code)
    (cur : TreeNode T) (h : subtree cur code ≠ .null) :
    grow code cur = cur := by
  induction code generalizing cur with
  | nil => rfl
  | cons bit rest ih =>
    cases cur with
    | null => rfl
    | node l r e =>
      cases bit
      · have hl : subtree l rest ≠ .null := by simpa [subtree, TreeNode.child] using h
        have hl0 : l ≠ .null := fun h0 => hl (by rw [h0, subtree_null])
        simp [grow, orNew_of_ne_null hl0, ih l hl]
      · have hr : subtree r rest ≠ .null := by simpa [subtree, TreeNode.child] using h
        have hr0 : r ≠ .null := fun h0 => hr (by rw [h0, subtree_null])
        simp [grow, orNew_of_ne_null hr0, ih r hr]

theorem subtree_setElement_self {T : Type} (x : T) (code : Code) (cur : TreeNode T)
    (l r : TreeNode T) (e : T) (h : subtree cur code = .node l r e) :
    subtree (setElement x code cur) code = .node l r x := by
  induction code generalizing cur with
  | nil =>
    have : cur = .node l r e := h
    subst this
    rfl
  | cons bit rest ih =>
    cases cur with
    | null => simp [subtree, TreeNode.child, subtree_null] at h
    | node l0 r0 e0 =>
      cases bit
      · simpa [setElement, subtree, TreeNode.child] using
          ih l0 (by simpa [subtree, TreeNode.child] using h)
      · simpa [setElement, subtree, TreeNode.child] using
          ih r0 (by simpa [subtree, TreeNode.child] using h)

theorem subtree_setElement_off {T : Type} (x : T) (code q : Code) (cur : TreeNode T)
    (h : ¬ q <+: code) :
    subtree (setElement x code cur) q = subtree cur q := by
  induction code generalizing cur q with
  | nil =>
    cases q with
    | nil => exact absurd (List.prefix_refl _) h
    | cons b qs => cases cur <;> simp [setElement, subtree, TreeNode.child]
  | cons bit rest ih =>
    cases q with
    | nil => exact absurd (List.nil_prefix) h
    | cons b qs =>
      cases cur with
      | null => simp [setElement]
      | node l r e =>
        by_cases hb : b = bit
        · subst hb
          have hq : ¬ qs <+: rest := fun hp => h (by simpa using hp)
          cases b
          · simpa [setElement, subtree, TreeNode.child] using ih qs l hq
          · simpa [setElement, subtree, TreeNode.child] using ih qs r hq
        · cases b <;> cases bit <;> simp_all [setElement, subtree, TreeNode.child]


/-! ## The encoding table -/

theorem find_filter_ne {T : Type} [DecidableEq T] (table : EncodingTable T)
    (e x : T) (h : x ≠ e) :
    EncodingTable.find (table.filter (fun entry => !decide (entry.1 = e))) x =
      EncodingTable.find table x := by
  induction table with
  | nil => rfl
  | cons entry rest ih =>
    obtain ⟨k, c⟩ := entry
    by_cases hk : k = e
    · subst hk
      have hkx : ¬ k = x := fun hx => h hx.symm
      simp [List.filter_cons, EncodingTable.find, hkx, ih]
    · by_cases hx : k = x
      · subst hx
        simp [List.filter_cons, EncodingTable.find, hk]
      · simp [List.filter_cons, EncodingTable.find, hk, hx, ih]

theorem find_mem {T : Type} [DecidableEq T] (table : EncodingTable T) (e : T)
    (c : Code) (h : EncodingTable.find table e = some c) : (e, c) ∈ table := by
  induction table with
  | nil => simp [EncodingTable.find] at h
  | cons entry rest ih =>
    obtain ⟨k, c0⟩ := entry
    by_cases hk : k = e
    · subst hk
      simp only [EncodingTable.find, if_true, Option.some.injEq] at h
      subst h
      exact List.mem_cons_self _ _
    · simp only [EncodingTable.find, hk, if_false] at h
      exact List.mem_cons_of_mem _ (ih h)

theorem find_set_self {T : Type} [DecidableEq T] (table : EncodingTable T)
    (e : T) (c : Code) :
    EncodingTable.find (EncodingTable.set table e c) e = some c := by
  simp [EncodingTable.set, EncodingTable.find]

theorem find_set_other {T : Type} [DecidableEq T] (table : EncodingTable T)
    (e x : T) (c : Code) (h : x ≠ e) :
    EncodingTable.find (EncodingTable.set table e c) x =
      EncodingTable.find table x := by
  have hex : ¬ e = x := fun hx => h hx.symm
  simp [EncodingTable.set, EncodingTable.find, hex, find_filter_ne table e x h]

/-! ## Building a table from a prefix-free list of pairs -/

theorem built_empty {T : Type} [DecidableEq T] :
    Built (HuffmanTable.empty : HuffmanTable T) [] where
  leafAt := by intro p hp; cases hp
  onPath := by intro q hq; exact absurd (subtree_null q) hq
  findIn := by intro p hp; cases hp
  findOut := by intro e _; rfl

theorem built_congr {T : Type} [DecidableEq T] {t : HuffmanTable T}
    {ps qs : List (T × Code)} (h : Built t ps) (hmem : ∀ p, p ∈ ps ↔ p ∈ qs) :
    Built t qs where
  leafAt := fun p hp => h.leafAt p ((hmem p).2 hp)
  onPath := fun q hq => (h.onPath q hq).imp id
    (fun ⟨p, hp, hpre⟩ => ⟨p, (hmem p).1 hp, hpre⟩)
  findIn := fun p hp => h.findIn p ((hmem p).2 hp)
  findOut := fun e he => h.findOut e (fun p hp => he p ((hmem p).1 hp))

/-- One successful insertion: a new element with a non-empty codeword that is
incomparable with every codeword of the table. -/
theorem built_addElement {T : Type} [DecidableEq T] [Inhabited T]
    {t : HuffmanTable T} {ps : List (T × Code)} (h : Built t ps)
    (e : T) (c : Code) (hnew : ∀ p ∈ ps, p.1 ≠ e) (hc : c ≠ [])
    (hfree : ∀ p ∈ ps, ¬ p.2 <+: c ∧ ¬ c <+: p.2) :
    (addElement t e c).1 = 0 ∧ Built (addElement t e c).2 ((e, c) :: ps) := by
  have hcont : EncodingTable.contains t.encTable_ e = false := by
    simp [EncodingTable.contains, h.findOut e hnew]
  have hoff : subtree t.root_ c = .null := by
    by_contra hne
    rcases h.onPath c hne with h0 | ⟨p, hp, hpre⟩
    · exact hc h0
    · exact (hfree p hp).2 hpre
  have hcur : subtree (grow c (orNew t.root_)) c = newNode :=
    subtree_grow_self c t.root_ hoff
  have hadd : addElement t e c =
      (0, { root_ := setElement e c (grow c (orNew t.root_)),
            encTable_ := EncodingTable.set t.encTable_ e c }) := by
    simp [addElement, hcont, hcur, newNode, TreeNode.isLeaf, TreeNode.isNull]
  rw [hadd]
  refine ⟨rfl, ?_, ?_, ?_, ?_⟩
  · intro p hp
    rcases List.mem_cons.1 hp with rfl | hp
    · exact subtree_setElement_self _ _ _ _ _ _ hcur
    · show subtree (setElement e c (grow c (orNew t.root_))) p.2 = _
      rw [subtree_setElement_off _ _ _ _ (hfree p hp).1,
        subtree_grow_off _ _ _ (hfree p hp).1]
      exact h.leafAt p hp
  · intro q hq
    by_cases hqc : q <+: c
    · exact Or.inr ⟨(e, c), List.mem_cons_self _ _, hqc⟩
    · have hq0 : subtree t.root_ q ≠ .null := by
        have := hq
        simp only [] at this
        rwa [subtree_setElement_off _ _ _ _ hqc, subtree_grow_off _ _ _ hqc] at this
      exact (h.onPath q hq0).imp id
        (fun ⟨p, hp, hpre⟩ => ⟨p, List.mem_cons_of_mem _ hp, hpre⟩)
  · intro p hp
    rcases List.mem_cons.1 hp with rfl | hp
    · exact find_set_self _ _ _
    · show EncodingTable.find (EncodingTable.set t.encTable_ e c) p.1 = _
      rw [find_set_other _ _ _ _ (hnew p hp)]
      exact h.findIn p hp
  · intro x hx
    have hxe : x ≠ e := fun hxe => hx (e, c) (List.mem_cons_self _ _) hxe.symm
    show EncodingTable.find (EncodingTable.set t.encTable_ e c) x = _
    rw [find_set_other _ _ _ _ hxe]
    exact h.findOut x (fun p hp => hx p (List.mem_cons_of_mem _ hp))

theorem built_addAll_aux {T : Type} [DecidableEq T] [Inhabited T]
    (ps : List (T × Code)) (t : HuffmanTable T) (done : List (T × Code))
    (h : Built t done) (hd : DistinctElements ps) (hne : NonEmptyCodes ps)
    (hpf : PrefixFree ps)
    (hcross : ∀ p ∈ ps, ∀ s ∈ done, s.1 ≠ p.1 ∧ ¬ s.2 <+: p.2 ∧ ¬ p.2 <+: s.2) :
    Built (addAll t ps) (ps.reverse ++ done) := by
  induction ps generalizing t done with
  | nil => simpa [addAll] using h
  | cons p rest ih =>
    have hstep := (built_addElement h p.1 p.2
      (fun s hs => (hcross p (List.mem_cons_self _ _) s hs).1)
      (hne p (List.mem_cons_self _ _))
      (fun s hs => (hcross p (List.mem_cons_self _ _) s hs).2)).2
    have hd2 := List.pairwise_cons.1 hd
    have hpf2 := List.pairwise_cons.1 hpf
    have := ih (addElement t p.1 p.2).2 ((p.1, p.2) :: done) hstep hd2.2
      (fun q hq => hne q (List.mem_cons_of_mem _ hq)) hpf2.2
      (by
        intro q hq s hs
        rcases List.mem_cons.1 hs with rfl | hs
        · exact ⟨hd2.1 q hq, (hpf2.1 q hq).1, (hpf2.1 q hq).2⟩
        · exact hcross q (List.mem_cons_of_mem _ hq) s hs)
    simpa [addAll, List.foldl] using this

/-- The table built from the empty one by inserting a list of pairs with
distinct elements and non-empty, prefix-free codewords holds exactly these
pairs. -/
theorem built_addAll {T : Type} [DecidableEq T] [Inhabited T]
    (ps : List (T × Code)) (hd : DistinctElements ps) (hne : NonEmptyCodes ps)
    (hpf : PrefixFree ps) :
    Built (addAll HuffmanTable.empty ps) ps := by
  have := built_addAll_aux ps HuffmanTable.empty [] built_empty hd hne hpf
    (by intro p _ s hs; cases hs)
  exact built_congr this (by intro p; simp)

/-! ## The loops of `encode` and `decode` -/

theorem encodeLoop_found {T : Type} [DecidableEq T] (t : HuffmanTable T)
    (m : List T) (res : Code) (ok : Bool) (h : ∀ x ∈ m, findCode t x ≠ []) :
    encodeLoop t m res ok = (res ++ codeConcat t m, ok) := by
  induction m generalizing res with
  | nil => simp [encodeLoop, codeConcat]
  | cons x rest ih =>
    have hx : findCode t x ≠ [] := h x (List.mem_cons_self _ _)
    have hrest := ih (res ++ findCode t x) (fun y hy => h y (List.mem_cons_of_mem _ hy))
    simp [encodeLoop, hx, hrest, codeConcat]

theorem encodeLoop_stop {T : Type} [DecidableEq T] (t : HuffmanTable T)
    (pre : List T) (x : T) (post : List T) (res : Code) (ok : Bool)
    (h : ∀ y ∈ pre, findCode t y ≠ []) (hx : findCode t x = []) :
    encodeLoop t (pre ++ x :: post) res ok = (res ++ codeConcat t pre, false) := by
  induction pre generalizing res with
  | nil => simp [encodeLoop, codeConcat, hx]
  | cons y rest ih =>
    have hy : findCode t y ≠ [] := h y (List.mem_cons_self _ _)
    have hrest := ih (res ++ findCode t y) (fun z hz => h z (List.mem_cons_of_mem _ hz))
    simp [encodeLoop, hy, hrest, codeConcat]

theorem decodeLoop_mono {T : Type} (root : TreeNode T) (fuel fuel2 : Nat)
    (cur : TreeNode T) (data : Code) (res : List T) (out : TreeNode T × List T)
    (h : decodeLoop root fuel cur data res = some out) (hle : fuel ≤ fuel2) :
    decodeLoop root fuel2 cur data res = some out := by
  induction fuel generalizing fuel2 cur data res with
  | zero =>
    cases data with
    | nil => cases fuel2 <;> simpa [decodeLoop] using h
    | cons b bs => simp [decodeLoop] at h
  | succ n ih =>
    obtain ⟨n2, rfl⟩ : ∃ n2, fuel2 = n2 + 1 := ⟨fuel2 - 1, by omega⟩
    have hn : n ≤ n2 := by omega
    cases data with
    | nil => simpa [decodeLoop] using h
    | cons b bs =>
      cases cur with
      | null => simpa [decodeLoop] using h
      | node l r e =>
        by_cases hleaf : (TreeNode.node l r e).isLeaf = true
        · simp only [decodeLoop, hleaf, if_true] at h ⊢
          exact ih _ _ _ _ h hn
        · simp only [decodeLoop, hleaf] at h ⊢
          exact ih _ _ _ _ h hn

theorem isLeaf_false_of_subtree {T : Type} (cur : TreeNode T) (bit : Bool)
    (rest : Code) (h : subtree cur (bit :: rest) ≠ .null) : cur.isLeaf = false := by
  cases cur with
  | null => rfl
  | node l r e =>
    cases bit
    · cases l with
      | null => simp [subtree, TreeNode.child, subtree_null] at h
      | node _ _ _ => simp [TreeNode.isLeaf, TreeNode.isNull]
    · cases r with
      | null => simp [subtree, TreeNode.child, subtree_null] at h
      | node _ _ _ => simp [TreeNode.isLeaf, TreeNode.isNull]

theorem subtree_of_isLeaf {T : Type} (cur : TreeNode T) (bit : Bool) (rest : Code)
    (h : cur.isLeaf = true) : subtree cur (bit :: rest) = .null := by
  by_contra hne
  rw [isLeaf_false_of_subtree cur bit rest hne] at h
  cases h

/-- Walking along a path that stays inside the trie takes one iteration per bit
and emits nothing. -/
theorem decodeLoop_walk {T : Type} (root : TreeNode T) (path : Code)
    (cur : TreeNode T) (rest : Code) (res : List T) (k : Nat)
    (h : subtree cur path ≠ .null) :
    decodeLoop root (path.length + k) cur (path ++ rest) res =
      decodeLoop root k (subtree cur path) rest res := by
  induction path generalizing cur with
  | nil => simp [subtree]
  | cons bit tail ih =>
    have hleaf := isLeaf_false_of_subtree cur bit tail h
    cases cur with
    | null => simp [subtree_null] at h
    | node l r e =>
      have hfuel : (bit :: tail).length + k = (tail.length + k) + 1 := by
        simp only [List.length_cons]; omega
      rw [hfuel]
      simp only [List.cons_append, decodeLoop, hleaf]
      exact ih _ h

/-- Decoding the codewords of a message that are followed by at least one more
bit emits the message and is back at the root. -/
theorem decodeLoop_message {T : Type} (root : TreeNode T) (code : T → Code)
    (m : List T) (rest : Code) (res : List T) (k : Nat)
    (hm : ∀ x ∈ m, subtree root (code x) = .node .null .null x)
    (hrest : rest ≠ []) :
    decodeLoop root ((m.map code).flatten.length + m.length + k) root
        ((m.map code).flatten ++ rest) res =
      decodeLoop root k root rest (res ++ m) := by
  induction m generalizing res with
  | nil => simp
  | cons x tail ih =>
    have hx := hm x (List.mem_cons_self _ _)
    have hfuel : (((x :: tail).map code).flatten.length + (x :: tail).length + k) =
        (code x).length + (((tail.map code).flatten.length + tail.length + k) + 1) := by
      simp only [List.map_cons, List.flatten_cons, List.length_append, List.length_cons]
      omega
    have hdata : ((x :: tail).map code).flatten ++ rest =
        code x ++ ((tail.map code).flatten ++ rest) := by
      simp
    rw [hfuel, hdata, decodeLoop_walk root (code x) root _ res _ (by rw [hx]; simp), hx]
    obtain ⟨b, bs, hbs⟩ : ∃ b bs, (tail.map code).flatten ++ rest = b :: bs := by
      cases hh : (tail.map code).flatten ++ rest with
      | nil => exact absurd (List.append_eq_nil.1 hh).2 hrest
      | cons b bs => exact ⟨b, bs, rfl⟩
    rw [hbs]
    simp only [decodeLoop, TreeNode.isLeaf, TreeNode.isNull, Bool.and_self, if_true]
    rw [← hbs, ih (res ++ [x]) (fun y hy => hm y (List.mem_cons_of_mem _ hy))]
    simp

/-- What a run of the loop that ends in a leaf has read: the codewords of the
emitted elements followed by the path to that leaf. -/
theorem decodeLoop_sound {T : Type} (root : TreeNode T) (code : T → Code)
    (hroot : root.isLeaf = false)
    (hleaf : ∀ q l r e, q ≠ [] → subtree root q = .node l r e →
      (TreeNode.node l r e).isLeaf = true → code e = q)
    (fuel : Nat) (cur : TreeNode T) (q data : Code) (res : List T)
    (out : TreeNode T) (res2 : List T)
    (hcur : cur = subtree root q) (hres : ∀ x ∈ res, code x ≠ [])
    (hrun : decodeLoop root fuel cur data res = some (out, res2))
    (hout : out.isLeaf = true) :
    (∀ x ∈ res2, code x ≠ []) ∧
    ∃ q2, subtree root q2 = out ∧
      (res2.map code).flatten ++ q2 = (res.map code).flatten ++ q ++ data := by
  induction fuel generalizing cur q data res with
  | zero =>
    cases data with
    | nil =>
      simp only [decodeLoop, Option.some.injEq, Prod.mk.injEq] at hrun
      obtain ⟨rfl, rfl⟩ := hrun
      exact ⟨hres, q, hcur.symm, by simp⟩
    | cons b bs => simp [decodeLoop] at hrun
  | succ n ih =>
    cases data with
    | nil =>
      simp only [decodeLoop, Option.some.injEq, Prod.mk.injEq] at hrun
      obtain ⟨rfl, rfl⟩ := hrun
      exact ⟨hres, q, hcur.symm, by simp⟩
    | cons b bs =>
      cases cur with
      | null =>
        simp only [decodeLoop, Option.some.injEq, Prod.mk.injEq] at hrun
        rw [← hrun.1] at hout
        cases hout
      | node l r e =>
        by_cases hl : (TreeNode.node l r e).isLeaf = true
        · simp only [decodeLoop, hl, if_true] at hrun
          have hq : q ≠ [] := by
            rintro rfl
            rw [hcur] at hl
            simp only [subtree] at hl
            rw [hroot] at hl
            cases hl
          have hcode : code e = q := hleaf q l r e hq hcur.symm hl
          have hres2 : ∀ x ∈ res ++ [e], code x ≠ [] := by
            intro x hx
            rcases List.mem_append.1 hx with hx | hx
            · exact hres x hx
            · rw [List.mem_singleton.1 hx, hcode]; exact hq
          obtain ⟨h1, q2, h2, h3⟩ := ih root [] (b :: bs) (res ++ [e]) rfl hres2 hrun
          refine ⟨h1, q2, h2, ?_⟩
          rw [h3]
          simp [hcode]
        · simp only [decodeLoop, hl] at hrun
          obtain ⟨h1, q2, h2, h3⟩ := ih ((TreeNode.node l r e).child b) (q ++ [b]) bs res
            (by rw [subtree_append, ← hcur]; rfl) hres hrun
          refine ⟨h1, q2, h2, ?_⟩
          rw [h3]
          simp

theorem length_le_flatten {T : Type} (code : T → Code) (m : List T)
    (h : ∀ x ∈ m, code x ≠ []) : m.length ≤ (m.map code).flatten.length := by
  induction m with
  | nil => simp
  | cons x tail ih =>
    have hx : 0 < (code x).length := List.length_pos.2 (h x (List.mem_cons_self _ _))
    have := ih (fun y hy => h y (List.mem_cons_of_mem _ hy))
    simp only [List.map_cons, List.flatten_cons, List.length_append, List.length_cons]
    omega

theorem decode_of_root {T : Type} (fuel : Nat) (t : HuffmanTable T) (data : Code)
    (h : t.root_ ≠ .null) :
    decode fuel t data =
      (decodeLoop t.root_ fuel t.root_ data []).map decodeFinish := by
  unfold decode
  cases hroot : t.root_ with
  | null => exact absurd hroot h
  | node l r e => rfl

/-- The codewords of a message followed by a non-empty path that stays inside
the trie: the loop emits the message and stops at the end of that path. -/
theorem decode_message_then_path {T : Type} (t : HuffmanTable T) (code : T → Code)
    (m : List T) (r : Code) (fuel : Nat)
    (hm : ∀ x ∈ m, subtree t.root_ (code x) = .node .null .null x)
    (hne : ∀ x ∈ m, code x ≠ [])
    (hr : r ≠ []) (hpath : subtree t.root_ r ≠ .null)
    (hfuel : 2 * ((m.map code).flatten ++ r).length ≤ fuel) :
    decode fuel t ((m.map code).flatten ++ r) =
      some (decodeFinish (subtree t.root_ r, m)) := by
  have hroot : t.root_ ≠ .null := fun h0 => hpath (by rw [h0, subtree_null])
  have hrun : decodeLoop t.root_ ((m.map code).flatten.length + m.length + (r.length + 0))
      t.root_ ((m.map code).flatten ++ r) [] = some (subtree t.root_ r, m) := by
    rw [decodeLoop_message t.root_ code m r [] _ hm hr]
    have := decodeLoop_walk t.root_ r t.root_ [] ([] ++ m) 0 hpath
    simpa [decodeLoop] using this
  have hlen := length_le_flatten code m hne
  have hle : (m.map code).flatten.length + m.length + (r.length + 0) ≤ fuel := by
    simp only [List.length_append] at hfuel
    omega
  rw [decode_of_root fuel t _ hroot, decodeLoop_mono _ _ _ _ _ _ _ hrun hle]
  rfl

theorem built_findCode {T : Type} [DecidableEq T] {t : HuffmanTable T}
    {ps : List (T × Code)} (h : Built t ps) (p : T × Code) (hp : p ∈ ps) :
    findCode t p.1 = p.2 := by
  simp [findCode, h.findIn p hp]

theorem built_root {T : Type} [DecidableEq T] {t : HuffmanTable T}
    {ps : List (T × Code)} (h : Built t ps) (p : T × Code) (hp : p ∈ ps)
    (hne : p.2 ≠ []) : t.root_ ≠ .null ∧ t.root_.isLeaf = false := by
  have hleaf := h.leafAt p hp
  obtain ⟨b, s, hbs⟩ : ∃ b s, p.2 = b :: s := by
    cases hc : p.2 with
    | nil => exact absurd hc hne
    | cons b s => exact ⟨b, s, rfl⟩
  rw [hbs] at hleaf
  have hnn : subtree t.root_ (b :: s) ≠ .null := by rw [hleaf]; simp
  exact ⟨fun h0 => hnn (by rw [h0, subtree_null]), isLeaf_false_of_subtree _ b s hnn⟩

/-- In a built table the element of a leaf below the root is registered with
the path of that leaf. -/
theorem built_leaf_code {T : Type} [DecidableEq T] {t : HuffmanTable T}
    {ps : List (T × Code)} (h : Built t ps) (q : Code) (l r : TreeNode T) (e : T)
    (hq : q ≠ []) (hsub : subtree t.root_ q = .node l r e)
    (hleaf : (TreeNode.node l r e).isLeaf = true) : findCode t e = q := by
  rcases h.onPath q (by rw [hsub]; simp) with h0 | ⟨p, hp, s, hs⟩
  · exact absurd h0 hq
  · have hp2 := h.leafAt p hp
    rw [← hs, subtree_append, hsub] at hp2
    cases s with
    | nil =>
      simp only [subtree, TreeNode.node.injEq] at hp2
      have hcode := built_findCode h p hp
      rw [← hp2.2.2] at hcode
      rw [hcode, ← hs]
      simp
    | cons b bs =>
      rw [subtree_of_isLeaf _ b bs hleaf] at hp2
      cases hp2

theorem exists_pair_of_mem_fst {T : Type} {ps : List (T × Code)} {x : T}
    (h : x ∈ ps.map Prod.fst) : ∃ p ∈ ps, p.1 = x := by
  obtain ⟨p, hp, hx⟩ := List.mem_map.1 h
  exact ⟨p, hp, hx⟩

/-! ## Round trips -/

/-- C1 (amended): for a table built from the empty table by `addElement` calls
on pairs with pairwise distinct elements and non-empty, prefix-free codewords,
and every message `m` over the elements of the table, `decode (encode (m))`
returns exactly `m`; `*ok` is `true` when `m` is not empty. -/
theorem decode_encode_roundtrip {T : Type} [DecidableEq T] [Inhabited T]
    (ps : List (T × Code)) (hd : DistinctElements ps) (hne : NonEmptyCodes ps)
    (hpf : PrefixFree ps) (m : List T) (hm : ∀ x ∈ m, x ∈ ps.map Prod.fst)
    (fuel : Nat)
    (hfuel : 2 * (encode (addAll HuffmanTable.empty ps) m).1.length ≤ fuel) :
    decode fuel (addAll HuffmanTable.empty ps)
        (encode (addAll HuffmanTable.empty ps) m).1 = some (m, !m.isEmpty) := by
  cases ps with
  | nil =>
    cases m with
    | nil => rfl
    | cons x rest => exact absurd (hm x (List.mem_cons_self _ _)) (by simp)
  | cons p0 rest0 =>
  have hB := built_addAll (p0 :: rest0) hd hne hpf
  generalize addAll HuffmanTable.empty (p0 :: rest0) = t at hB hfuel ⊢
  have hroot := built_root hB p0 (List.mem_cons_self _ _) (hne p0 (List.mem_cons_self _ _))
  have hcode : ∀ x ∈ m, findCode t x ≠ [] ∧
      subtree t.root_ (findCode t x) = .node .null .null x := by
    intro x hx
    obtain ⟨p, hp, rfl⟩ := exists_pair_of_mem_fst (hm x hx)
    rw [built_findCode hB p hp]
    exact ⟨hne p hp, hB.leafAt p hp⟩
  have henc : (encode t m).1 = codeConcat t m := by
    simp [encode, encodeLoop_found t m [] false (fun x hx => (hcode x hx).1)]
  rw [henc] at hfuel ⊢
  rcases List.eq_nil_or_concat m with rfl | ⟨m0, x, rfl⟩
  · rw [decode_of_root fuel t _ hroot.1]
    cases hr : t.root_ with
    | null => exact absurd hr hroot.1
    | node l r e =>
      have hl := hroot.2
      rw [hr] at hl
      simp [codeConcat, decodeLoop, decodeFinish, hl]
  · rw [List.concat_eq_append] at hcode hfuel ⊢
    have hx := hcode x (by simp)
    have hrun := decode_message_then_path t (findCode t) m0 (findCode t x) fuel
      (fun y hy => (hcode y (by simp [hy])).2)
      (fun y hy => (hcode y (by simp [hy])).1)
      hx.1 (by rw [hx.2]; simp)
      (by simpa [codeConcat] using hfuel)
    have hdata : codeConcat t (m0 ++ [x]) =
        (m0.map (findCode t)).flatten ++ findCode t x := by
      simp [codeConcat]
    rw [hdata, hrun, hx.2]
    simp [decodeFinish, TreeNode.isLeaf, TreeNode.isNull]

/-- C1 at the table of `main.cpp` and the message `[2, 3, 4]`. -/
theorem decode_encode_roundtrip_witness :
    decode 10 mainTable (encode mainTable [2, 3, 4]).1 = some ([2, 3, 4], true) :=
  decode_encode_roundtrip mainPairs (by unfold DistinctElements; decide)
    (by unfold NonEmptyCodes; decide) (by unfold PrefixFree; decide)
    [2, 3, 4] (by decide) 10 (by decide)

/-- C1 as stated fails when the single codeword has length zero: the table
`7 -> ""` is built by a successful `addElement`, its one codeword is
prefix-free, and for the message `[7, 7]` the method `encode` gives no bits
(the empty code is taken for "not in table"), which `decode` turns into `[7]`. -/
theorem decode_encode_empty_code_counterexample :
    DistinctElements emptyCodePairs ∧ PrefixFree emptyCodePairs ∧
    (∀ x ∈ [7, 7], x ∈ emptyCodePairs.map Prod.fst) ∧
    (addElement HuffmanTable.empty 7 []).1 = 0 ∧
    (encode (addAll HuffmanTable.empty emptyCodePairs) [7, 7]).1 = [] ∧
    decode 1 (addAll HuffmanTable.empty emptyCodePairs)
      (encode (addAll HuffmanTable.empty emptyCodePairs) [7, 7]).1 = some ([7], true) ∧
    [7] ≠ [7, 7] := by
  refine ⟨?_, ?_, ?_, ?_, ?_, ?_, ?_⟩
  · unfold DistinctElements; decide
  · unfold PrefixFree; decide
  · decide
  · decide
  · decide
  · decide
  · decide

/-- C2: for a table built by `addElement` calls on pairs with pairwise distinct
elements and non-empty, prefix-free codewords, whenever `decode` reports
success on a bit sequence, `encode` of the decoded elements returns exactly
that bit sequence. -/
theorem encode_decode_roundtrip {T : Type} [DecidableEq T] [Inhabited T]
    (ps : List (T × Code)) (hd : DistinctElements ps) (hne : NonEmptyCodes ps)
    (hpf : PrefixFree ps) (data : Code) (fuel : Nat) (m : List T)
    (hdec : decode fuel (addAll HuffmanTable.empty ps) data = some (m, true)) :
    (encode (addAll HuffmanTable.empty ps) m).1 = data := by
  cases ps with
  | nil => simp [addAll, HuffmanTable.empty, decode] at hdec
  | cons p0 rest0 =>
  have hB := built_addAll (p0 :: rest0) hd hne hpf
  generalize addAll HuffmanTable.empty (p0 :: rest0) = t at hB hdec ⊢
  have hroot := built_root hB p0 (List.mem_cons_self _ _) (hne p0 (List.mem_cons_self _ _))
  rw [decode_of_root fuel t _ hroot.1] at hdec
  obtain ⟨⟨cur, res⟩, hrun, hfin⟩ := Option.map_eq_some'.1 hdec
  cases cur with
  | null => simp [decodeFinish] at hfin
  | node l r e =>
    by_cases hl : (TreeNode.node l r e).isLeaf = true
    · simp only [decodeFinish, hl, Bool.not_true, Bool.false_eq_true, if_false,
        Prod.mk.injEq, and_true] at hfin
      obtain ⟨hres, q2, hq2, hflat⟩ := decodeLoop_sound t.root_ (findCode t) hroot.2
        (fun q l r e hq hsub hleaf => built_leaf_code hB q l r e hq hsub hleaf)
        fuel t.root_ [] data [] (.node l r e) res rfl (by simp) hrun hl
      have hq2ne : q2 ≠ [] := by
        rintro rfl
        have h1 := hroot.2
        simp only [subtree] at hq2
        rw [hq2, hl] at h1
        cases h1
      have hcode := built_leaf_code hB q2 l r e hq2ne hq2 hl
      have hall : ∀ x ∈ m, findCode t x ≠ [] := by
        intro x hx
        rw [← hfin] at hx
        rcases List.mem_append.1 hx with hx | hx
        · exact hres x hx
        · rw [List.mem_singleton.1 hx, hcode]; exact hq2ne
      simp only [encode, encodeLoop_found t m [] false hall, List.nil_append]
      rw [← hfin]
      simp only [codeConcat, List.map_append, List.flatten_append, List.map_cons,
        List.map_nil, List.flatten_cons, List.flatten_nil, List.append_nil, hcode]
      simpa using hflat
    · simp [decodeFinish, hl] at hfin

/-- C2 at the test of `main.cpp`: the table `2 -> 0`, `3 -> 10`, `4 -> 11` and
the bits `0010101100`. -/
theorem encode_decode_roundtrip_witness :
    decode 20 mainTable (bits [0, 0, 1, 0, 1, 0, 1, 1, 0, 0]) =
        some ([2, 2, 3, 3, 4, 2, 2], true) ∧
    (encode mainTable [2, 2, 3, 3, 4, 2, 2]).1 = bits [0, 0, 1, 0, 1, 0, 1, 1, 0, 0] :=
  ⟨by decide, encode_decode_roundtrip mainPairs (by unfold DistinctElements; decide)
    (by unfold NonEmptyCodes; decide) (by unfold PrefixFree; decide)
    (bits [0, 0, 1, 0, 1, 0, 1, 1, 0, 0]) 20 [2, 2, 3, 3, 4, 2, 2] (by decide)⟩

/-- C10: for a table built from pairs with pairwise distinct elements and
non-empty, prefix-free codewords, on the codewords of the pairs `e1 .. en` of
the table followed by a non-empty strict initial segment `r` of some codeword,
`decode` returns exactly `[e1, .., en]` and sets `*ok` to `false`. -/
theorem decode_truncated {T : Type} [DecidableEq T] [Inhabited T]
    (ps : List (T × Code)) (hd : DistinctElements ps) (hne : NonEmptyCodes ps)
    (hpf : PrefixFree ps) (ms : List (T × Code)) (hms : ∀ p ∈ ms, p ∈ ps)
    (r : Code) (hr : r ≠ []) (hpre : ∃ p ∈ ps, r <+: p.2 ∧ r ≠ p.2)
    (fuel : Nat) (hfuel : 2 * ((ms.map Prod.snd).flatten ++ r).length ≤ fuel) :
    decode fuel (addAll HuffmanTable.empty ps) ((ms.map Prod.snd).flatten ++ r) =
      some (ms.map Prod.fst, false) := by
  have hB := built_addAll ps hd hne hpf
  generalize addAll HuffmanTable.empty ps = t at hB ⊢
  obtain ⟨p, hp, ⟨s, hs⟩, hrp⟩ := hpre
  have hmap : (ms.map Prod.fst).map (findCode t) = ms.map Prod.snd := by
    rw [List.map_map]
    exact List.map_congr_left (fun q hq => built_findCode hB q (hms q hq))
  have hsne : s ≠ [] := by
    rintro rfl
    exact hrp (by simpa using hs)
  obtain ⟨b, bs, rfl⟩ : ∃ b bs, s = b :: bs := by
    cases s with
    | nil => exact absurd rfl hsne
    | cons b bs => exact ⟨b, bs, rfl⟩
  have hleaf := hB.leafAt p hp
  rw [← hs, subtree_append] at hleaf
  have hnn : subtree (subtree t.root_ r) (b :: bs) ≠ .null := by rw [hleaf]; simp
  have hpath : subtree t.root_ r ≠ .null := fun h0 => hnn (by rw [h0, subtree_null])
  have hnl := isLeaf_false_of_subtree _ b bs hnn
  have hrun := decode_message_then_path t (findCode t) (ms.map Prod.fst) r fuel
    (by
      intro x hx
      obtain ⟨q, hq, rfl⟩ := List.mem_map.1 hx
      rw [built_findCode hB q (hms q hq)]
      exact hB.leafAt q (hms q hq))
    (by
      intro x hx
      obtain ⟨q, hq, rfl⟩ := List.mem_map.1 hx
      rw [built_findCode hB q (hms q hq)]
      exact hne q (hms q hq))
    hr hpath (by rw [hmap]; exact hfuel)
  rw [hmap] at hrun
  rw [hrun]
  cases hsub : subtree t.root_ r with
  | null => exact absurd hsub hpath
  | node l r2 e =>
    rw [hsub] at hnl
    simp [decodeFinish, hnl]

/-- C10 at the test of `main.cpp`: the table `2 -> 0`, `3 -> 10`, `4 -> 11` and
the bits `00101011001`, which are the codewords of `2 2 3 3 4 2 2` followed by
the first bit of `10`. -/
theorem decode_truncated_witness :
    decode 22 mainTable (bits [0, 0, 1, 0, 1, 0, 1, 1, 0, 0, 1]) =
      some ([2, 2, 3, 3, 4, 2, 2], false) :=
  decode_truncated mainPairs (by unfold DistinctElements; decide)
    (by unfold NonEmptyCodes; decide) (by unfold PrefixFree; decide)
    [(2, [false]), (2, [false]), (3, [true, false]), (3, [true, false]),
      (4, [true, true]), (2, [false]), (2, [false])]
    (by decide) [true] (by decide) ⟨(3, [true, false]), by decide, by decide, by decide⟩
    22 (by decide)

/-! ## Conflicts between codewords -/

theorem subtree_grow_ne_null {T : Type} [Inhabited T] (code q : Code)
    (cur : TreeNode T) (h : subtree cur q ≠ .null) :
    subtree (grow code cur) q ≠ .null := by
  induction code generalizing cur q with
  | nil => exact h
  | cons bit rest ih =>
    cases cur with
    | null => exact absurd (subtree_null q) h
    | node l r e =>
      cases q with
      | nil => cases bit <;> simp [grow, subtree]
      | cons b qs =>
        have hchild : ∀ c : TreeNode T, subtree c qs ≠ .null →
            subtree (grow rest (orNew c)) qs ≠ .null := by
          intro c hc
          have hc0 : c ≠ .null := fun h0 => hc (by rw [h0, subtree_null])
          rw [orNew_of_ne_null hc0]
          exact ih qs c hc
        cases bit <;> cases b <;>
          simp only [grow, subtree, TreeNode.child, if_true, if_false,
            Bool.false_eq_true] at h ⊢
        · exact hchild l h
        · exact h
        · exact h
        · exact hchild r h

theorem subtree_setElement_ne_null {T : Type} (x : T) (code q : Code)
    (cur : TreeNode T) (h : subtree cur q ≠ .null) :
    subtree (setElement x code cur) q ≠ .null := by
  induction code generalizing cur q with
  | nil =>
    cases cur with
    | null => exact absurd (subtree_null q) h
    | node l r e =>
      cases q with
      | nil => simp [setElement, subtree]
      | cons b qs => simpa [setElement, subtree, TreeNode.child] using h
  | cons bit rest ih =>
    cases cur with
    | null => exact absurd (subtree_null q) h
    | node l r e =>
      cases q with
      | nil => cases bit <;> simp [setElement, subtree]
      | cons b qs =>
        cases bit <;> cases b <;>
          simp only [setElement, subtree, TreeNode.child, if_true, if_false,
            Bool.false_eq_true] at h ⊢
        · exact ih qs l h
        · exact h
        · exact h
        · exact ih qs r h

/-- No call of `addElement` removes a node of the trie. -/
theorem addElement_keeps_node {T : Type} [DecidableEq T] [Inhabited T]
    (t : HuffmanTable T) (e : T) (code q : Code) (h : subtree t.root_ q ≠ .null) :
    subtree (addElement t e code).2.root_ q ≠ .null := by
  have hroot : t.root_ ≠ .null := fun h0 => h (by rw [h0, subtree_null])
  unfold addElement
  simp only [orNew_of_ne_null hroot]
  split
  · exact h
  · split
    · exact subtree_grow_ne_null code q _ h
    · exact subtree_setElement_ne_null e code q _ (subtree_grow_ne_null code q _ h)

theorem addAll_keeps_node {T : Type} [DecidableEq T] [Inhabited T]
    (later : List (T × Code)) (t : HuffmanTable T) (q : Code)
    (h : subtree t.root_ q ≠ .null) :
    subtree (addAll t later).root_ q ≠ .null := by
  induction later generalizing t with
  | nil => exact h
  | cons p rest ih =>
    simpa [addAll, List.foldl] using ih (addElement t p.1 p.2).2
      (addElement_keeps_node t p.1 p.2 q h)

/-- After a call of `addElement` that returned 0 the node at the end of the
codeword exists. -/
theorem addElement_ok_node {T : Type} [DecidableEq T] [Inhabited T]
    (t : HuffmanTable T) (e : T) (code : Code) (h : (addElement t e code).1 = 0) :
    subtree (addElement t e code).2.root_ code ≠ .null := by
  unfold addElement at h ⊢
  simp only at h ⊢
  split at h
  · simp at h
  · split at h
    · simp at h
    · rename_i hc hl
      simp only [hc, hl]
      simp only [Bool.false_eq_true, if_false]
      have hleaf : (subtree (grow code (orNew t.root_)) code).isLeaf = true := by
        simpa using hl
      cases hsub : subtree (grow code (orNew t.root_)) code with
      | null => rw [hsub] at hleaf; cases hleaf
      | node l r e0 =>
        rw [subtree_setElement_self e code _ l r e0 hsub]
        simp

/-- C4: in every table in which the codeword `c` was inserted by a call that
returned 0, whatever `addElement` calls followed, `addElement (e, p)` with an
element `e` that is not in the encoding map and a strict initial segment `p` of
`c` returns -2, because the node at the end of `p` exists and is not a leaf. -/
theorem addElement_shorter_code_conflict {T : Type} [DecidableEq T] [Inhabited T]
    (t0 : HuffmanTable T) (e0 : T) (c : Code) (hins : (addElement t0 e0 c).1 = 0)
    (later : List (T × Code)) (e : T) (p : Code)
    (hnew : EncodingTable.contains (addAll (addElement t0 e0 c).2 later).encTable_ e = false)
    (hpre : p <+: c) (hstrict : p ≠ c) :
    (addElement (addAll (addElement t0 e0 c).2 later) e p).1 = -2 ∧
    subtree (addAll (addElement t0 e0 c).2 later).root_ p ≠ .null ∧
    (subtree (addAll (addElement t0 e0 c).2 later).root_ p).isLeaf = false := by
  have hnode := addAll_keeps_node later _ c (addElement_ok_node t0 e0 c hins)
  generalize addAll (addElement t0 e0 c).2 later = t at hnode hnew ⊢
  obtain ⟨s, rfl⟩ := hpre
  obtain ⟨b, bs, rfl⟩ : ∃ b bs, s = b :: bs := by
    cases s with
    | nil => exact absurd (by simp) hstrict
    | cons b bs => exact ⟨b, bs, rfl⟩
  rw [subtree_append] at hnode
  have hp : subtree t.root_ p ≠ .null := fun h0 => hnode (by rw [h0, subtree_null])
  have hroot : t.root_ ≠ .null := fun h0 => hp (by rw [h0, subtree_null])
  have hleaf := isLeaf_false_of_subtree _ b bs hnode
  refine ⟨?_, hp, hleaf⟩
  simp [addElement, hnew, orNew_of_ne_null hroot, grow_of_subtree_ne_null p _ hp, hleaf]

/-- C4 on a fresh table: after `addElement (3, "10")` and `addElement (2, "0")`,
the call `addElement (5, "1")` returns -2. -/
theorem addElement_shorter_code_conflict_witness :
    (addElement (addAll (addElement HuffmanTable.empty 3 [true, false]).2
        [(2, [false])]) 5 [true]).1 = -2 ∧
    subtree (addAll (addElement HuffmanTable.empty 3 [true, false]).2
        [(2, [false])]).root_ [true] ≠ .null ∧
    (subtree (addAll (addElement HuffmanTable.empty 3 [true, false]).2
        [(2, [false])]).root_ [true]).isLeaf = false :=
  addElement_shorter_code_conflict HuffmanTable.empty 3 [true, false] (by decide)
    [(2, [false])] 5 [true] (by decide) (by decide) (by decide)

/-- C3 at `addElement (2, "0")` followed by `addElement (3, "01")`: the second
call returns 0 although `0` is a strict initial segment of `01`, and the node of
`2`, a leaf before the call, has a child after it, so that `decode` of `0` no
longer reports success. -/
theorem addElement_longer_code_accepted :
    (addElement HuffmanTable.empty 2 [false]).1 = 0 ∧
    EncodingTable.contains oneTable.encTable_ 3 = false ∧
    subtree oneTable.root_ [false] = .node .null .null 2 ∧
    (addElement oneTable 3 [false, true]).1 = 0 ∧
    subtree (addElement oneTable 3 [false, true]).2.root_ [false] =
      .node .null (.node .null .null 3) 2 ∧
    decode 2 oneTable [false] = some ([2], true) ∧
    decode 2 (addElement oneTable 3 [false, true]).2 [false] = some ([], false) := by
  refine ⟨?_, ?_, ?_, ?_, ?_, ?_, ?_⟩ <;> decide

/-- C5 at `addElement (2, "0")`, `clear ()`, `addElement (2, "0")`: the last
call returns -1 and leaves the encoding map as it was, but it has allocated a
root, so the table is not unchanged: `decode` of no bits returned nothing with
`*ok == false` before the call and returns the default element with
`*ok == true` after it. -/
theorem addElement_duplicate_after_clear :
    runCalls HuffmanTable.empty [.add 2 [false], .clear] =
      { root_ := .null, encTable_ := [(2, [false])] } ∧
    EncodingTable.contains (clear oneTable).encTable_ 2 = true ∧
    (addElement (clear oneTable) 2 [false]).1 = -1 ∧
    (addElement (clear oneTable) 2 [false]).2 =
      { root_ := .node .null .null 0, encTable_ := [(2, [false])] } ∧
    (addElement (clear oneTable) 2 [false]).2 ≠ clear oneTable ∧
    decode 1 (clear oneTable) [] = some ([], false) ∧
    decode 1 (addElement (clear oneTable) 2 [false]).2 [] = some ([0], true) := by
  refine ⟨?_, ?_, ?_, ?_, ?_, ?_, ?_⟩ <;> decide

/-- C6 at `addElement (2, "0")` followed by `addElement (3, "0")`: the second
call returns 0 and replaces the element of the leaf at `0`; the encoding map
still maps 2 to `0`, but `decode` of `0` yields `[3]`. -/
theorem addElement_overwrites_leaf :
    (addElement HuffmanTable.empty 2 [false]).1 = 0 ∧
    decode 2 oneTable [false] = some ([2], true) ∧
    (addElement oneTable 3 [false]).1 = 0 ∧
    EncodingTable.find (addElement oneTable 3 [false]).2.encTable_ 2 = some [false] ∧
    subtree (addElement oneTable 3 [false]).2.root_ [false] = .node .null .null 3 ∧
    decode 2 (addElement oneTable 3 [false]).2 [false] = some ([3], true) := by
  refine ⟨?_, ?_, ?_, ?_, ?_, ?_⟩ <;> decide

/-- C7 at `addElement (2, "0")` followed by `clear ()`: the trie is gone but
the encoding map still holds `2 -> 0`, so `encode` of `[2]` returns the bit `0`
where a fresh table returns no bits, and `addElement (2, "0")` returns -1. -/
theorem clear_keeps_encoding_table :
    (clear oneTable).root_ = .null ∧
    (clear oneTable).encTable_ = [(2, [false])] ∧
    encode (clear oneTable) [2] = ([false], false) ∧
    encode (HuffmanTable.empty : HuffmanTable Nat) [2] = ([], false) ∧
    (addElement (clear oneTable) 2 [false]).1 = -1 ∧
    (addElement HuffmanTable.empty 2 [false]).1 = 0 := by
  refine ⟨?_, ?_, ?_, ?_, ?_, ?_⟩ <;> decide

/-- C8 at the table of `main.cpp` and the message `[2, 3, 4]`: every element
has a non-empty registered codeword and `encode` returns all the bits, yet
`*ok` is `false`. -/
theorem encode_ok_false_on_success :
    (∀ x ∈ [2, 3, 4], (findCode mainTable x).length ≠ 0) ∧
    encode mainTable [2, 3, 4] = (bits [0, 1, 0, 1, 1], false) := by
  refine ⟨?_, ?_⟩ <;> decide

/-- The method `encode` never sets `*ok` to `true`. -/
theorem encode_ok_always_false {T : Type} [DecidableEq T] (t : HuffmanTable T)
    (m : List T) : (encode t m).2 = false := by
  have h : ∀ (m : List T) (res : Code), (encodeLoop t m res false).2 = false := by
    intro m
    induction m with
    | nil => intro res; rfl
    | cons x rest ih =>
      intro res
      simp only [encodeLoop]
      split
      · rfl
      · exact ih _
  exact h m []

/-- C9: for every table whose registered codewords are all non-empty and every
message whose first element absent from the encoding map is at position `k`,
`encode` returns exactly the concatenation, in message order, of the registered
codewords of the `k` preceding elements, and `*ok` is `false`. -/
theorem encode_unknown_element {T : Type} [DecidableEq T] (t : HuffmanTable T)
    (hcodes : ∀ p ∈ t.encTable_, p.2 ≠ [])
    (message : List T) (k : Nat) (x : T) (hk : message[k]? = some x)
    (hbefore : ∀ y ∈ message.take k, EncodingTable.contains t.encTable_ y = true)
    (hat : EncodingTable.contains t.encTable_ x = false) :
    encode t message = (((message.take k).map (findCode t)).flatten, false) := by
  have hsplit : message = message.take k ++ x :: message.drop (k + 1) := by
    have hlt : k < message.length := by
      by_contra hge
      rw [List.getElem?_eq_none (by omega)] at hk
      cases hk
    have hget : message[k] = x := by
      rw [List.getElem?_eq_getElem hlt] at hk
      exact Option.some.inj hk
    rw [← hget, ← List.drop_eq_getElem_cons hlt, List.take_append_drop]
  have hpre : ∀ y ∈ message.take k, findCode t y ≠ [] := by
    intro y hy
    have hc := hbefore y hy
    unfold EncodingTable.contains at hc
    obtain ⟨c, hcode⟩ := Option.isSome_iff_exists.1 hc
    simpa [findCode, hcode] using hcodes (y, c) (find_mem _ _ _ hcode)
  have hx : findCode t x = [] := by
    unfold EncodingTable.contains at hat
    have : EncodingTable.find t.encTable_ x = none := by
      cases hf : EncodingTable.find t.encTable_ x with
      | none => rfl
      | some c => rw [hf] at hat; cases hat
    simp [findCode, this]
  have hrun := encodeLoop_stop t (message.take k) x (message.drop (k + 1)) [] false hpre hx
  unfold encode
  rw [← hsplit] at hrun
  rw [hrun]
  simp [codeConcat]

/-- C9 at the table of `main.cpp` and the message `[2, 3, 9, 4]`, whose element
at position 2 is not registered. -/
theorem encode_unknown_element_witness :
    encode mainTable [2, 3, 9, 4] = (bits [0, 1, 0], false) :=
  encode_unknown_element mainTable (by decide) [2, 3, 9, 4] 2 9 (by decide)
    (by decide) (by decide)

/-! ## Edge cases of `decode` -/

theorem decode_mono {T : Type} (fuel fuel2 : Nat) (t : HuffmanTable T) (data : Code)
    (out : List T × Bool) (h : decode fuel t data = some out) (hle : fuel ≤ fuel2) :
    decode fuel2 t data = some out := by
  unfold decode at h ⊢
  cases hroot : t.root_ with
  | null => simpa [hroot] using h
  | node l r e =>
    simp only [hroot] at h ⊢
    obtain ⟨mid, hrun, hfin⟩ := Option.map_eq_some'.1 h
    rw [decodeLoop_mono _ _ _ _ _ _ _ hrun hle]
    simp [hfin]

/-- When the root is a leaf the loop of `decode` never consumes a bit: on a
non-empty input no number of iterations ends it. -/
theorem decodeLoop_root_leaf {T : Type} (root : TreeNode T)
    (hleaf : root.isLeaf = true) (fuel : Nat) (bit : Bool) (rest : Code)
    (res : List T) : decodeLoop root fuel root (bit :: rest) res = none := by
  induction fuel generalizing res with
  | zero => rfl
  | succ n ih =>
    cases root with
    | null => cases hleaf
    | node l r e =>
      simp only [decodeLoop, hleaf, if_true]
      exact ih _

/-- C11 (amended): for every table into which a non-empty codeword was inserted
by a call that returned 0, whatever `addElement` calls followed, `decode` of the
empty bit sequence returns the empty element sequence and sets `*ok` to
`false`: the loop ends at the root, which is not a leaf. -/
theorem decode_empty_input {T : Type} [DecidableEq T] [Inhabited T]
    (t0 : HuffmanTable T) (e0 : T) (c : Code) (hins : (addElement t0 e0 c).1 = 0)
    (hc : c ≠ []) (later : List (T × Code)) (fuel : Nat) :
    decode fuel (addAll (addElement t0 e0 c).2 later) [] = some ([], false) := by
  have hnode := addAll_keeps_node later _ c (addElement_ok_node t0 e0 c hins)
  generalize addAll (addElement t0 e0 c).2 later = t at hnode ⊢
  obtain ⟨b, bs, rfl⟩ : ∃ b bs, c = b :: bs := by
    cases c with
    | nil => exact absurd rfl hc
    | cons b bs => exact ⟨b, bs, rfl⟩
  have hleaf := isLeaf_false_of_subtree _ b bs hnode
  cases hroot : t.root_ with
  | null => simp [decode, hroot]
  | node l r e =>
    rw [hroot] at hleaf
    simp [decode, hroot, decodeLoop, decodeFinish, hleaf]

/-- C11 on a fresh table after `addElement (3, "10")` and `addElement (2, "0")`. -/
theorem decode_empty_input_witness :
    decode 0 (addAll (addElement HuffmanTable.empty 3 [true, false]).2
      [(2, [false])]) [] = some ([], false) :=
  decode_empty_input HuffmanTable.empty 3 [true, false] (by decide) (by decide)
    [(2, [false])] 0

/-- C11 as stated fails on the table of `main.cpp`: its three `addElement`
calls return 0, and `decode` of no bits returns no element with `*ok` set to
`false`, not `true`. -/
theorem decode_empty_input_counterexample :
    addAllCodes HuffmanTable.empty mainPairs = [0, 0, 0] ∧
    decode 1 mainTable [] = some ([], false) ∧
    decode 1 mainTable [] ≠ some ([], true) := by
  refine ⟨?_, ?_, ?_⟩ <;> decide

/-- C12 (amended): on the table built by `addElement (2, "0")`,
`addElement (3, "10")`, `addElement (4, "11")`, `decode` of the bits
`0010101100` yields `[2, 2, 3, 3, 4, 2, 2]` with `*ok` set to `true`, once the
loop may run its 16 iterations. -/
theorem decode_main_example (fuel : Nat) (hfuel : 16 ≤ fuel) :
    decode fuel mainTable (bits [0, 0, 1, 0, 1, 0, 1, 1, 0, 0]) =
      some ([2, 2, 3, 3, 4, 2, 2], true) :=
  decode_mono 16 fuel mainTable _ _ (by decide) hfuel

/-- C12 with room for twice as many iterations as there are bits. -/
theorem decode_main_example_witness :
    decode 20 mainTable (bits [0, 0, 1, 0, 1, 0, 1, 1, 0, 0]) =
      some ([2, 2, 3, 3, 4, 2, 2], true) :=
  decode_main_example 20 (by decide)

/-- C12 as stated fails: the three calls return 0 and the bits `0010101100`
are the codewords `0 0 10 10 11 0 0`, so `decode` yields
`[2, 2, 3, 3, 4, 2, 2]`, which is not `[2, 2, 3, 2, 3, 4]`. -/
theorem decode_main_example_counterexample :
    addAllCodes HuffmanTable.empty mainPairs = [0, 0, 0] ∧
    decode 20 mainTable (bits [0, 0, 1, 0, 1, 0, 1, 1, 0, 0]) =
      some ([2, 2, 3, 3, 4, 2, 2], true) ∧
    decode 20 mainTable (bits [0, 0, 1, 0, 1, 0, 1, 1, 0, 0]) ≠
      some ([2, 2, 3, 2, 3, 4], true) := by
  refine ⟨?_, ?_, ?_⟩ <;> decide

/-- When the root is not a leaf the loop of `decode` ends within two iterations
per bit, from every node and with every `res`. -/
theorem decodeLoop_terminates {T : Type} (root : TreeNode T)
    (hroot : root.isLeaf = false) (data : Code) (cur : TreeNode T) (res : List T) :
    ∃ out, decodeLoop root (2 * data.length) cur data res = some out := by
  induction data generalizing cur res with
  | nil => exact ⟨(cur, res), by simp [decodeLoop]⟩
  | cons b bs ih =>
    have hfuel : 2 * (b :: bs).length = (2 * bs.length + 1) + 1 := by
      simp only [List.length_cons]; omega
    rw [hfuel]
    have hnext : ∀ (n : TreeNode T) (r : List T),
        ∃ out, decodeLoop root (2 * bs.length + 1) n bs r = some out := by
      intro n r
      obtain ⟨out, hout⟩ := ih n r
      exact ⟨out, decodeLoop_mono _ _ _ _ _ _ _ hout (by omega)⟩
    cases cur with
    | null => exact ⟨(.null, res), by simp [decodeLoop]⟩
    | node l r e =>
      by_cases hl : (TreeNode.node l r e).isLeaf = true
      · simp only [decodeLoop, hl, if_true]
        cases root with
        | null => exact ⟨(.null, res ++ [e]), by simp [decodeLoop]⟩
        | node l0 r0 e0 =>
          simp only [decodeLoop, hroot]
          exact ih _ _
      · simp only [decodeLoop, hl]
        exact hnext _ _

/-- C13 at `addElement (7, "")` on a fresh table, which returns 0 and makes the
root a leaf: on the one-bit input `1` the loop of `decode` pushes 7 and goes
back to the root without consuming the bit, so no number of iterations ends
it. -/
theorem decode_diverges_on_root_leaf :
    (addElement HuffmanTable.empty 7 []).1 = 0 ∧
    rootLeafTable.root_ = .node .null .null 7 ∧
    ∀ fuel, decode fuel rootLeafTable [true] = none := by
  refine ⟨by decide, by decide, ?_⟩
  intro fuel
  have hroot : rootLeafTable.root_ = .node .null .null 7 := by decide
  unfold decode
  rw [hroot]
  simp only [decodeLoop_root_leaf (TreeNode.node .null .null 7) (by decide) fuel true [] [],
    Option.map_none']

/-- C14: on a freshly constructed table `decode` returns the empty element
sequence and sets `*ok` to `false`, for every bit sequence. -/
theorem decode_fresh_table {T : Type} (fuel : Nat) (data : Code) :
    decode fuel (HuffmanTable.empty : HuffmanTable T) data = some ([], false) := by
  rfl

/-! ## Bit strings (`src/src/huffman_aux.cpp`) -/

theorem set_length_append {α : Type} (pre : List α) (x y : α) (xs : List α) :
    (pre ++ x :: xs).set pre.length y = pre ++ y :: xs := by
  induction pre with
  | nil => rfl
  | cons a tail ih => simp [List.set, ih]

/-- The loop of `str2code` on characters that are all `0` or `1`: every
position is filled with its bit and `*ok` stays `true`. -/
theorem str2codeLoop_valid (rest : List Char) (pre : Code)
    (h : ∀ c ∈ rest, c = '0' ∨ c = '1') :
    str2codeLoop rest pre.length (pre ++ List.replicate rest.length false) =
      (pre ++ rest.map (fun c => decide (c = '1')), true) := by
  induction rest generalizing pre with
  | nil => simp [str2codeLoop]
  | cons c tail ih =>
    have htail : ∀ d ∈ tail, d = '0' ∨ d = '1' :=
      fun d hd => h d (List.mem_cons_of_mem _ hd)
    rcases h c (List.mem_cons_self _ _) with rfl | rfl
    · have := ih (pre ++ [false]) htail
      simp only [List.length_append, List.length_singleton, List.append_assoc,
        List.singleton_append] at this
      simpa [str2codeLoop, List.replicate_succ] using this
    · have := ih (pre ++ [true]) htail
      simp only [List.length_append, List.length_singleton, List.append_assoc,
        List.singleton_append] at this
      simpa [str2codeLoop, List.replicate_succ, set_length_append] using this

/-- The loop of `str2code` up to the first character that is neither `0` nor
`1`: the bits before it are filled in, the rest of the vector keeps its initial
`false` bits, and `*ok` is `false`. -/
theorem str2codeLoop_invalid (good : List Char) (bad : Char) (tail : List Char)
    (pre : Code) (h : ∀ c ∈ good, c = '0' ∨ c = '1') (h0 : bad ≠ '0')
    (h1 : bad ≠ '1') :
    str2codeLoop (good ++ bad :: tail) pre.length
        (pre ++ List.replicate (good ++ bad :: tail).length false) =
      (pre ++ good.map (fun c => decide (c = '1')) ++
        List.replicate (tail.length + 1) false, false) := by
  induction good generalizing pre with
  | nil => simp [str2codeLoop, h0, h1]
  | cons c rest ih =>
    have hrest : ∀ d ∈ rest, d = '0' ∨ d = '1' :=
      fun d hd => h d (List.mem_cons_of_mem _ hd)
    rcases h c (List.mem_cons_self _ _) with rfl | rfl
    · have := ih (pre ++ [false]) hrest
      simp only [List.length_append, List.length_singleton, List.append_assoc,
        List.singleton_append] at this
      simpa [str2codeLoop, List.replicate_succ] using this
    · have := ih (pre ++ [true]) hrest
      simp only [List.length_append, List.length_singleton, List.append_assoc,
        List.singleton_append] at this
      simpa [str2codeLoop, List.replicate_succ, set_length_append] using this

theorem str2codeLoop_ok_false_iff (str : List Char) (i : Nat) (code : Code) :
    (str2codeLoop str i code).2 = false ↔ ∃ c ∈ str, c ≠ '0' ∧ c ≠ '1' := by
  induction str generalizing i code with
  | nil => simp [str2codeLoop]
  | cons c rest ih =>
    by_cases h1 : c = '1'
    · subst h1
      simp [str2codeLoop, ih]
    · by_cases h0 : c = '0'
      · subst h0
        simp [str2codeLoop, ih]
      · simp [str2codeLoop, h0, h1]

/-- C15: for every string made only of the characters `0` and `1` (the empty
string included), `str2code` sets `*ok` to `true` and `code2str` of its result
is the string itself. -/
theorem str2code_roundtrip (str : List Char) (h : ∀ c ∈ str, c = '0' ∨ c = '1') :
    (str2code str).2 = true ∧ code2str (str2code str).1 = str := by
  have hrun := str2codeLoop_valid str [] h
  simp only [List.length_nil, List.nil_append] at hrun
  unfold str2code
  rw [hrun]
  refine ⟨rfl, ?_⟩
  simp only [code2str, List.map_map]
  conv_rhs => rw [← List.map_id str]
  apply List.map_congr_left
  intro c hc
  rcases h c hc with rfl | rfl <;> rfl

/-- C15 at the strings `011` and the empty string. -/
theorem str2code_roundtrip_witness :
    ((str2code ['0', '1', '1']).2 = true ∧
      code2str (str2code ['0', '1', '1']).1 = ['0', '1', '1']) ∧
    ((str2code []).2 = true ∧ code2str (str2code []).1 = []) :=
  ⟨str2code_roundtrip ['0', '1', '1'] (by decide), str2code_roundtrip [] (by decide)⟩

/-- C16 (amended): for every string, `str2code` sets `*ok` to `false` if and
only if the string contains a character other than `0` or `1`, and on failure
it returns a vector as long as the whole string: the bits of the characters
before the first invalid character, followed by `false` for the invalid
character and for every character after it. -/
theorem str2code_malformed (str : List Char) :
    ((str2code str).2 = false ↔ ∃ c ∈ str, c ≠ '0' ∧ c ≠ '1') ∧
    ∀ (good : List Char) (bad : Char) (tail : List Char),
      str = good ++ bad :: tail → (∀ c ∈ good, c = '0' ∨ c = '1') →
      bad ≠ '0' → bad ≠ '1' →
      str2code str = (good.map (fun c => decide (c = '1')) ++
        List.replicate (tail.length + 1) false, false) := by
  refine ⟨str2codeLoop_ok_false_iff str 0 _, ?_⟩
  rintro good bad tail rfl hgood h0 h1
  have hrun := str2codeLoop_invalid good bad tail [] hgood h0 h1
  simpa [str2code] using hrun

/-- C16 at the string `1x0`, whose first invalid character is at index 1. -/
theorem str2code_malformed_witness :
    str2code ['1', 'x', '0'] = ([true, false, false], false) :=
  (str2code_malformed ['1', 'x', '0']).2 ['1'] 'x' ['0'] rfl (by decide) (by decide)
    (by decide)

/-- C16 as stated fails on the string `1x`: `*ok` is `false`, but the returned
vector has the two bits of `Code code (str.size ())`, not only the one bit
parsed before the invalid character at index 1. -/
theorem str2code_malformed_counterexample :
    str2code ['1', 'x'] = ([true, false], false) ∧
    (str2code ['1', 'x']).1.length ≠ 1 ∧
    (str2code ['1', 'x']).1 ≠ [true] := by
  refine ⟨?_, ?_, ?_⟩ <;> decide

/-! ## Building and using a non-degenerate table -/

theorem addAllCodes_aux {T : Type} [DecidableEq T] [Inhabited T]
    (ps : List (T × Code)) (t : HuffmanTable T) (done : List (T × Code))
    (h : Built t done) (hd : DistinctElements ps) (hne : NonEmptyCodes ps)
    (hpf : PrefixFree ps)
    (hcross : ∀ p ∈ ps, ∀ s ∈ done, s.1 ≠ p.1 ∧ ¬ s.2 <+: p.2 ∧ ¬ p.2 <+: s.2) :
    ∀ r ∈ addAllCodes t ps, r = 0 := by
  induction ps generalizing t done with
  | nil => intro r hr; cases hr
  | cons p rest ih =>
    have hstep := built_addElement h p.1 p.2
      (fun s hs => (hcross p (List.mem_cons_self _ _) s hs).1)
      (hne p (List.mem_cons_self _ _))
      (fun s hs => (hcross p (List.mem_cons_self _ _) s hs).2)
    have hd2 := List.pairwise_cons.1 hd
    have hpf2 := List.pairwise_cons.1 hpf
    have hrest := ih (addElement t p.1 p.2).2 ((p.1, p.2) :: done) hstep.2 hd2.2
      (fun q hq => hne q (List.mem_cons_of_mem _ hq)) hpf2.2
      (by
        intro q hq s hs
        rcases List.mem_cons.1 hs with rfl | hs
        · exact ⟨hd2.1 q hq, (hpf2.1 q hq).1, (hpf2.1 q hq).2⟩
        · exact hcross q (List.mem_cons_of_mem _ hq) s hs)
    intro r hr
    rcases List.mem_cons.1 hr with rfl | hr
    · exact hstep.1
    · exact hrest r hr

/-- On a table that holds exactly the pairs `ps`, a non-empty message of pairs
of the table is encoded as the concatenation of its codewords, which is decoded
back to the message with `*ok` set to `true`. -/
theorem built_roundtrip {T : Type} [DecidableEq T] {t : HuffmanTable T}
    {ps : List (T × Code)} (hB : Built t ps) (hne : NonEmptyCodes ps)
    (ms : List (T × Code)) (hms : ∀ p ∈ ms, p ∈ ps) (hnil : ms ≠ [])
    (fuel : Nat) (hfuel : 2 * (ms.map Prod.snd).flatten.length ≤ fuel) :
    (encode t (ms.map Prod.fst)).1 = (ms.map Prod.snd).flatten ∧
    decode fuel t (ms.map Prod.snd).flatten = some (ms.map Prod.fst, true) := by
  have hmap : ∀ l : List (T × Code), (∀ p ∈ l, p ∈ ps) →
      (l.map Prod.fst).map (findCode t) = l.map Prod.snd := by
    intro l hl
    rw [List.map_map]
    exact List.map_congr_left (fun q hq => built_findCode hB q (hl q hq))
  constructor
  · have hall : ∀ x ∈ ms.map Prod.fst, findCode t x ≠ [] := by
      intro x hx
      obtain ⟨q, hq, rfl⟩ := List.mem_map.1 hx
      rw [built_findCode hB q (hms q hq)]
      exact hne q (hms q hq)
    simp only [encode, encodeLoop_found t _ [] false hall, List.nil_append, codeConcat]
    rw [hmap ms hms]
  · rcases List.eq_nil_or_concat ms with rfl | ⟨ms0, p, rfl⟩
    · exact absurd rfl hnil
    · rw [List.concat_eq_append] at hms hfuel ⊢
      have hp : p ∈ ps := hms p (by simp)
      have hms0 : ∀ q ∈ ms0, q ∈ ps := fun q hq => hms q (by simp [hq])
      have hrun := decode_message_then_path t (findCode t) (ms0.map Prod.fst) p.2 fuel
        (by
          intro x hx
          obtain ⟨q, hq, rfl⟩ := List.mem_map.1 hx
          rw [built_findCode hB q (hms0 q hq)]
          exact hB.leafAt q (hms0 q hq))
        (by
          intro x hx
          obtain ⟨q, hq, rfl⟩ := List.mem_map.1 hx
          rw [built_findCode hB q (hms0 q hq)]
          exact hne q (hms0 q hq))
        (hne p hp) (by rw [hB.leafAt p hp]; simp)
        (by rw [hmap ms0 hms0]; simpa using hfuel)
      rw [hmap ms0 hms0, hB.leafAt p hp] at hrun
      simpa [decodeFinish, TreeNode.isLeaf, TreeNode.isNull] using hrun

/-- C17: for every list of pairs with pairwise distinct elements and non-empty,
prefix-free codewords, inserted into an empty table in any order `qs`, every
`addElement` call returns 0, and afterwards for every non-empty message over
these pairs `encode` returns the in-order concatenation of the codewords and
`decode` of it returns exactly the message with `*ok` set to `true`. -/
theorem build_encode_decode {T : Type} [DecidableEq T] [Inhabited T]
    (ps qs : List (T × Code)) (hd : DistinctElements ps) (hne : NonEmptyCodes ps)
    (hpf : PrefixFree ps) (hperm : qs.Perm ps)
    (ms : List (T × Code)) (hms : ∀ p ∈ ms, p ∈ ps) (hnil : ms ≠ [])
    (fuel : Nat) (hfuel : 2 * (ms.map Prod.snd).flatten.length ≤ fuel) :
    (∀ r ∈ addAllCodes HuffmanTable.empty qs, r = 0) ∧
    (encode (addAll HuffmanTable.empty qs) (ms.map Prod.fst)).1 =
      (ms.map Prod.snd).flatten ∧
    decode fuel (addAll HuffmanTable.empty qs)
        (encode (addAll HuffmanTable.empty qs) (ms.map Prod.fst)).1 =
      some (ms.map Prod.fst, true) := by
  have hd2 : DistinctElements qs :=
    hperm.symm.pairwise hd (fun h => Ne.symm h)
  have hpf2 : PrefixFree qs :=
    hperm.symm.pairwise hpf (fun h => ⟨h.2, h.1⟩)
  have hne2 : NonEmptyCodes qs := fun p hp => hne p (hperm.mem_iff.1 hp)
  have hB := built_addAll qs hd2 hne2 hpf2
  have hround := built_roundtrip hB hne2 ms (fun p hp => hperm.mem_iff.2 (hms p hp))
    hnil fuel hfuel
  refine ⟨?_, hround.1, ?_⟩
  · exact addAllCodes_aux qs HuffmanTable.empty [] built_empty hd2 hne2 hpf2
      (by intro p _ s hs; cases hs)
  · rw [hround.1]
    exact hround.2

/-- C17 at the pairs of `main.cpp` inserted in the order `4, 2, 3` and the
message `3 2 4`. -/
theorem build_encode_decode_witness :
    (∀ r ∈ addAllCodes HuffmanTable.empty
      [(4, [true, true]), (2, [false]), (3, [true, false])], r = 0) ∧
    (encode (addAll HuffmanTable.empty
        [(4, [true, true]), (2, [false]), (3, [true, false])]) [3, 2, 4]).1 =
      bits [1, 0, 0, 1, 1] ∧
    decode 10 (addAll HuffmanTable.empty
        [(4, [true, true]), (2, [false]), (3, [true, false])])
      (encode (addAll HuffmanTable.empty
        [(4, [true, true]), (2, [false]), (3, [true, false])]) [3, 2, 4]).1 =
      some ([3, 2, 4], true) :=
  build_encode_decode mainPairs [(4, [true, true]), (2, [false]), (3, [true, false])]
    (by unfold DistinctElements; decide) (by unfold NonEmptyCodes; decide)
    (by unfold PrefixFree; decide) (by decide)
    [(3, [true, false]), (2, [false]), (4, [true, true])] (by decide) (by decide)
    10 (by decide)

/-- C18 at `addElement (2, "0")` followed by `addElement (3, "0")` on a fresh
table: both calls return 0, the encoding map has the keys 3 and 2, and the only
leaf of the trie holds 3, so the key 2 is held by no leaf. -/
theorem keys_not_leaf_elements :
    addAllCodes HuffmanTable.empty [(2, [false]), (3, [false])] = [0, 0] ∧
    (addAll HuffmanTable.empty [(2, [false]), (3, [false])]).keys = [3, 2] ∧
    leafElements (addAll HuffmanTable.empty [(2, [false]), (3, [false])]).root_ = [3] ∧
    2 ∈ (addAll HuffmanTable.empty [(2, [false]), (3, [false])]).keys ∧
    2 ∉ leafElements (addAll HuffmanTable.empty [(2, [false]), (3, [false])]).root_ := by
  refine ⟨?_, ?_, ?_, ?_, ?_⟩ <;> decide

/-! ## The state after a conflict -/

theorem subtree_grow_self_ne_null {T : Type} [Inhabited T] (code : Code)
    (cur : TreeNode T) : subtree (grow code (orNew cur)) code ≠ .null := by
  by_cases h : subtree cur code = .null
  · rw [subtree_grow_self code cur h]
    simp [newNode]
  · have hcur : cur ≠ .null := fun h0 => h (by rw [h0, subtree_null])
    rw [orNew_of_ne_null hcur, grow_of_subtree_ne_null code cur h]
    exact h

theorem contains_set {T : Type} [DecidableEq T] (table : EncodingTable T)
    (e x : T) (c : Code) (h : EncodingTable.contains table x = true ∨ x = e) :
    EncodingTable.contains (EncodingTable.set table e c) x = true := by
  unfold EncodingTable.contains
  by_cases hx : x = e
  · subst hx
    rw [find_set_self]
    rfl
  · rw [find_set_other _ _ _ _ hx]
    rcases h with h | h
    · exact h
    · exact absurd h hx

/-- What a call of `addElement` that returns -2 has found and done: the element
was not registered, the node at the end of the codeword existed already and was
not a leaf, no node was created, and the encoding table has the new entry. -/
theorem addElement_conflict {T : Type} [DecidableEq T] [Inhabited T]
    (t : HuffmanTable T) (e : T) (c : Code) (h : (addElement t e c).1 = -2) :
    EncodingTable.contains t.encTable_ e = false ∧
    subtree t.root_ c ≠ .null ∧ (subtree t.root_ c).isLeaf = false ∧
    (addElement t e c).2 =
      { root_ := t.root_, encTable_ := EncodingTable.set t.encTable_ e c } := by
  unfold addElement at h ⊢
  simp only at h ⊢
  split at h
  · simp at h
  · rename_i hcont
    split at h
    · rename_i hl
      have hnl : (subtree (grow c (orNew t.root_)) c).isLeaf = false := by simpa using hl
      have hsub : subtree t.root_ c ≠ .null := by
        intro h0
        rw [subtree_grow_self c t.root_ h0] at hnl
        simp [newNode, TreeNode.isLeaf, TreeNode.isNull] at hnl
      have hroot : t.root_ ≠ .null := fun h0 => hsub (by rw [h0, subtree_null])
      have hgrow : grow c (orNew t.root_) = t.root_ := by
        rw [orNew_of_ne_null hroot, grow_of_subtree_ne_null c _ hsub]
      rw [hgrow] at hnl
      refine ⟨by simpa using hcont, hsub, hnl, ?_⟩
      simp [hcont, hgrow, hnl]
    · simp at h

/-- The three ways in which a call of `addElement` ends. -/
theorem addElement_cases {T : Type} [DecidableEq T] [Inhabited T]
    (t : HuffmanTable T) (e : T) (c : Code) :
    (EncodingTable.contains t.encTable_ e = true ∧
      addElement t e c = (-1, { root_ := orNew t.root_, encTable_ := t.encTable_ })) ∨
    (EncodingTable.contains t.encTable_ e = false ∧
      (subtree (grow c (orNew t.root_)) c).isLeaf = false ∧
      addElement t e c =
        (-2, { root_ := grow c (orNew t.root_),
               encTable_ := EncodingTable.set t.encTable_ e c })) ∨
    (EncodingTable.contains t.encTable_ e = false ∧
      (subtree (grow c (orNew t.root_)) c).isLeaf = true ∧
      addElement t e c =
        (0, { root_ := setElement e c (grow c (orNew t.root_)),
              encTable_ := EncodingTable.set t.encTable_ e c })) := by
  rcases Bool.eq_false_or_eq_true (EncodingTable.contains t.encTable_ e) with hcont | hcont
  · exact Or.inl ⟨hcont, by simp [addElement, hcont]⟩
  · rcases Bool.eq_false_or_eq_true (subtree (grow c (orNew t.root_)) c).isLeaf with hl | hl
    · exact Or.inr (Or.inr ⟨hcont, hl, by simp [addElement, hcont, hl]⟩)
    · exact Or.inr (Or.inl ⟨hcont, hl, by simp [addElement, hcont, hl]⟩)

theorem leavesRegistered_addElement {T : Type} [DecidableEq T] [Inhabited T]
    (t : HuffmanTable T) (e : T) (c : Code) (h : LeavesRegistered t) :
    LeavesRegistered (addElement t e c).2 := by
  intro q l r x hq hsub hleaf
  obtain ⟨b, qs, rfl⟩ : ∃ b qs, q = b :: qs := by
    cases q with
    | nil => exact absurd rfl hq
    | cons b qs => exact ⟨b, qs, rfl⟩
  have hend := subtree_grow_self_ne_null c t.root_
  rcases addElement_cases t e c with ⟨_, hres⟩ | ⟨_, hl, hres⟩ | ⟨_, hl, hres⟩
  · rw [hres] at hsub ⊢
    simp only at hsub ⊢
    rw [subtree_orNew_cons] at hsub
    exact h _ l r x hq hsub hleaf
  · rw [hres] at hsub ⊢
    simp only at hsub ⊢
    by_cases hpre : (b :: qs) <+: c
    · obtain ⟨s, rfl⟩ := hpre
      cases s with
      | nil =>
        simp only [List.append_nil] at hl hsub
        rw [hsub, hleaf] at hl
        cases hl
      | cons b2 s2 =>
        rw [subtree_append, hsub] at hend
        rw [isLeaf_false_of_subtree _ b2 s2 hend] at hleaf
        cases hleaf
    · rw [subtree_grow_off _ _ _ hpre] at hsub
      exact contains_set _ _ _ _ (Or.inl (h _ l r x hq hsub hleaf))
  · rw [hres] at hsub ⊢
    simp only at hsub ⊢
    by_cases hpre : (b :: qs) <+: c
    · obtain ⟨s, rfl⟩ := hpre
      cases s with
      | nil =>
        simp only [List.append_nil] at hend hsub
        cases hcur : subtree (grow (b :: qs) (orNew t.root_)) (b :: qs) with
        | null => exact absurd hcur hend
        | node l0 r0 e0 =>
          rw [subtree_setElement_self e (b :: qs) _ l0 r0 e0 hcur] at hsub
          simp only [TreeNode.node.injEq] at hsub
          exact contains_set _ _ _ _ (Or.inr hsub.2.2.symm)
      | cons b2 s2 =>
        have hend2 := subtree_setElement_ne_null e (b :: qs ++ b2 :: s2) _ _ hend
        rw [subtree_append, hsub] at hend2
        rw [isLeaf_false_of_subtree _ b2 s2 hend2] at hleaf
        cases hleaf
    · rw [subtree_setElement_off _ _ _ _ hpre, subtree_grow_off _ _ _ hpre] at hsub
      exact contains_set _ _ _ _ (Or.inl (h _ l r x hq hsub hleaf))

theorem leavesRegistered_runCalls {T : Type} [DecidableEq T] [Inhabited T]
    (calls : List (Call T)) (t : HuffmanTable T) (h : LeavesRegistered t) :
    LeavesRegistered (runCalls t calls) := by
  induction calls generalizing t with
  | nil => exact h
  | cons call rest ih =>
    have hstep : LeavesRegistered (Call.apply t call) := by
      cases call with
      | add e c => exact leavesRegistered_addElement t e c h
      | clear =>
        intro q l r x _ hsub _
        simp [Call.apply, clear, subtree_null] at hsub
    simpa [runCalls, List.foldl] using ih (Call.apply t call) hstep

theorem leavesRegistered_empty {T : Type} [DecidableEq T] :
    LeavesRegistered (HuffmanTable.empty : HuffmanTable T) := by
  intro q l r x _ hsub _
  simp [HuffmanTable.empty, subtree_null] at hsub

/-- C19: in every state reached from the empty table by `addElement` and
`clear` calls, whenever `addElement (e, c)` returns -2, the trie is exactly as
before the call, the encoding map has gained the entry `e -> c` and is
otherwise as before, `encode ([e])` outputs `c`, and no leaf of the trie holds
`e`. -/
theorem addElement_conflict_post_state {T : Type} [DecidableEq T] [Inhabited T]
    (calls : List (Call T)) (e : T) (c : Code)
    (h : (addElement (runCalls HuffmanTable.empty calls) e c).1 = -2) :
    (addElement (runCalls HuffmanTable.empty calls) e c).2.root_ =
      (runCalls HuffmanTable.empty calls).root_ ∧
    EncodingTable.find (runCalls HuffmanTable.empty calls).encTable_ e = none ∧
    EncodingTable.find
      (addElement (runCalls HuffmanTable.empty calls) e c).2.encTable_ e = some c ∧
    (∀ x, x ≠ e →
      EncodingTable.find
        (addElement (runCalls HuffmanTable.empty calls) e c).2.encTable_ x =
      EncodingTable.find (runCalls HuffmanTable.empty calls).encTable_ x) ∧
    (encode (addElement (runCalls HuffmanTable.empty calls) e c).2 [e]).1 = c ∧
    ∀ (q : Code) (l r : TreeNode T) (x : T),
      subtree (addElement (runCalls HuffmanTable.empty calls) e c).2.root_ q =
        .node l r x → (TreeNode.node l r x).isLeaf = true → x ≠ e := by
  have hreg := leavesRegistered_runCalls calls HuffmanTable.empty leavesRegistered_empty
  generalize runCalls HuffmanTable.empty calls = t at h hreg ⊢
  obtain ⟨hcont, hsub, hnl, hstate⟩ := addElement_conflict t e c h
  rw [hstate]
  have hnone : EncodingTable.find t.encTable_ e = none := by
    unfold EncodingTable.contains at hcont
    cases hf : EncodingTable.find t.encTable_ e with
    | none => rfl
    | some c0 => rw [hf] at hcont; cases hcont
  refine ⟨rfl, hnone, find_set_self _ _ _, fun x hx => find_set_other _ _ _ _ hx, ?_, ?_⟩
  · cases c with
    | nil => simp [encode, encodeLoop, findCode, find_set_self]
    | cons b bs => simp [encode, encodeLoop, findCode, find_set_self]
  · intro q l r x hq hleaf hxe
    subst hxe
    cases q with
    | nil =>
      simp only [subtree] at hq
      cases c with
      | nil =>
        simp only [subtree] at hnl
        rw [hq, hleaf] at hnl
        cases hnl
      | cons b bs =>
        have := isLeaf_false_of_subtree _ b bs hsub
        rw [hq, hleaf] at this
        cases this
    | cons b qs =>
      have := hreg (b :: qs) l r x (by simp) hq hleaf
      rw [hcont] at this
      cases this

/-- C19 on a fresh table after `addElement (3, "10")`: the call
`addElement (5, "1")` returns -2. -/
theorem addElement_conflict_post_state_witness :
    (addElement (runCalls HuffmanTable.empty [.add 3 [true, false]]) 5 [true]).1 = -2 ∧
    (addElement (runCalls HuffmanTable.empty [.add 3 [true, false]]) 5 [true]).2.root_ =
      (runCalls HuffmanTable.empty [.add 3 [true, false]]).root_ ∧
    (encode (addElement (runCalls HuffmanTable.empty [.add 3 [true, false]])
      5 [true]).2 [5]).1 = [true] :=
  have h := addElement_conflict_post_state [.add 3 [true, false]] 5 [true] (by decide)
  ⟨by decide, h.1, h.2.2.2.2.1⟩

/-! ## Falling off the trie -/

/-- Decoding the paths of a list of leaves that are followed by at least one
more bit emits the elements of these leaves and is back at the root. -/
theorem decodeLoop_leaves {T : Type} (root : TreeNode T) (ms : List (Code × T))
    (rest : Code) (res : List T) (k : Nat)
    (hm : ∀ p ∈ ms, subtree root p.1 = .node .null .null p.2)
    (hrest : rest ≠ []) :
    decodeLoop root ((ms.map Prod.fst).flatten.length + ms.length + k) root
        ((ms.map Prod.fst).flatten ++ rest) res =
      decodeLoop root k root rest (res ++ ms.map Prod.snd) := by
  induction ms generalizing res with
  | nil => simp
  | cons p tail ih =>
    have hp := hm p (List.mem_cons_self _ _)
    have hfuel : (((p :: tail).map Prod.fst).flatten.length + (p :: tail).length + k) =
        p.1.length + (((tail.map Prod.fst).flatten.length + tail.length + k) + 1) := by
      simp only [List.map_cons, List.flatten_cons, List.length_append, List.length_cons]
      omega
    have hdata : ((p :: tail).map Prod.fst).flatten ++ rest =
        p.1 ++ ((tail.map Prod.fst).flatten ++ rest) := by
      simp
    rw [hfuel, hdata, decodeLoop_walk root p.1 root _ res _ (by rw [hp]; simp), hp]
    obtain ⟨b, bs, hbs⟩ : ∃ b bs, (tail.map Prod.fst).flatten ++ rest = b :: bs := by
      cases hh : (tail.map Prod.fst).flatten ++ rest with
      | nil => exact absurd (List.append_eq_nil.1 hh).2 hrest
      | cons b bs => exact ⟨b, bs, rfl⟩
    rw [hbs]
    simp only [decodeLoop, TreeNode.isLeaf, TreeNode.isNull, Bool.and_self, if_true]
    rw [← hbs, ih (res ++ [p.2]) (fun y hy => hm y (List.mem_cons_of_mem _ hy))]
    simp

/-- The pair returned by `decode` when the walk leaves the trie: the elements
of the leaves passed so far and `*ok == false`. -/
theorem decode_off_trie_result {T : Type} (t : HuffmanTable T) (ms : List (Code × T))
    (hms : ∀ p ∈ ms, subtree t.root_ p.1 = .node .null .null p.2)
    (q : Code) (b : Bool) (rest : Code)
    (hq : subtree t.root_ q ≠ .null)
    (hinner : (subtree t.root_ q).isLeaf = false)
    (hmiss : (subtree t.root_ q).child b = .null)
    (fuel : Nat)
    (hfuel : 2 * ((ms.map Prod.fst).flatten ++ (q ++ b :: rest)).length ≤ fuel) :
    decode fuel t ((ms.map Prod.fst).flatten ++ (q ++ b :: rest)) =
      some (ms.map Prod.snd, false) := by
  have hroot : t.root_ ≠ .null := fun h0 => hq (by rw [h0, subtree_null])
  have hrootleaf : t.root_.isLeaf = false := by
    cases q with
    | nil => exact hinner
    | cons b2 qs => exact isLeaf_false_of_subtree _ b2 qs hq
  have hpaths : ∀ p ∈ ms, Prod.fst p ≠ [] := by
    intro p hp h0
    have := hms p hp
    rw [h0] at this
    simp only [subtree] at this
    rw [this] at hrootleaf
    simp [TreeNode.isLeaf, TreeNode.isNull] at hrootleaf
  have hlen := length_le_flatten Prod.fst ms hpaths
  have hstep : decodeLoop t.root_ (q.length + 2) t.root_ (q ++ b :: rest)
      ([] ++ ms.map Prod.snd) = some (.null, ms.map Prod.snd) := by
    rw [decodeLoop_walk t.root_ q t.root_ (b :: rest) _ 2 hq]
    cases hsub : subtree t.root_ q with
    | null => exact absurd hsub hq
    | node l r e =>
      rw [hsub] at hinner hmiss
      simp only [decodeLoop, hinner, hmiss]
      cases rest <;> simp [decodeLoop]
  have hrun : decodeLoop t.root_
      ((ms.map Prod.fst).flatten.length + ms.length + (q.length + 2)) t.root_
      ((ms.map Prod.fst).flatten ++ (q ++ b :: rest)) [] =
        some (.null, ms.map Prod.snd) := by
    rw [decodeLoop_leaves t.root_ ms (q ++ b :: rest) [] _ hms (by simp), hstep]
  have hle : (ms.map Prod.fst).flatten.length + ms.length + (q.length + 2) ≤ fuel := by
    simp only [List.length_append, List.length_cons] at hfuel
    omega
  rw [decode_of_root fuel t _ hroot, decodeLoop_mono _ _ _ _ _ _ _ hrun hle]
  rfl


theorem decodeLoopChecked_null {T : Type} (root : TreeNode T) (fuel i : Nat)
    (data : Code) (res : List T) :
    decodeLoopChecked root (fuel + 1) i .null data res =
      some (.value (i, .null, res)) := by
  cases data <;> simp [decodeLoopChecked, TreeNode.isNull]

theorem decodeLoopChecked_node {T : Type} (root : TreeNode T) (fuel i : Nat)
    (l r : TreeNode T) (e : T) (bit : Bool) (rest : Code) (res : List T) :
    decodeLoopChecked root (fuel + 1) i (.node l r e) (bit :: rest) res =
      if (TreeNode.node l r e).isLeaf then
        decodeLoopChecked root fuel i root (bit :: rest) (res ++ [e])
      else
        decodeLoopChecked root fuel (i + 1) ((TreeNode.node l r e).child bit) rest res := by
  simp [decodeLoopChecked, TreeNode.isNull, TreeNode.deref, TreeNode.isLeaf,
    TreeNode.child]

theorem decodeLoopChecked_mono {T : Type} (root : TreeNode T) (fuel fuel2 i : Nat)
    (cur : TreeNode T) (data : Code) (res : List T)
    (out : Checked (Nat × TreeNode T × List T))
    (h : decodeLoopChecked root fuel i cur data res = some out) (hle : fuel ≤ fuel2) :
    decodeLoopChecked root fuel2 i cur data res = some out := by
  induction fuel generalizing fuel2 i cur data res with
  | zero =>
    cases data with
    | nil => cases fuel2 <;> simpa [decodeLoopChecked] using h
    | cons b bs => simp [decodeLoopChecked] at h
  | succ n ih =>
    obtain ⟨n2, rfl⟩ : ∃ n2, fuel2 = n2 + 1 := ⟨fuel2 - 1, by omega⟩
    have hn : n ≤ n2 := by omega
    cases data with
    | nil => simpa [decodeLoopChecked] using h
    | cons b bs =>
      cases cur with
      | null => rw [decodeLoopChecked_null] at h ⊢; exact h
      | node l r e =>
        rw [decodeLoopChecked_node] at h ⊢
        by_cases hleaf : (TreeNode.node l r e).isLeaf = true
        · simp only [hleaf, if_true] at h ⊢
          exact ih _ _ _ _ _ h hn
        · simp only [hleaf] at h ⊢
          exact ih _ _ _ _ _ h hn

/-- The checked loop never dereferences `NULL`, on any trie and any input: the
test `cur == NULL` precedes every access to the node. -/
theorem decodeLoopChecked_no_fault {T : Type} (root : TreeNode T) (fuel i : Nat)
    (cur : TreeNode T) (data : Code) (res : List T) :
    decodeLoopChecked root fuel i cur data res ≠ some .fault := by
  induction fuel generalizing i cur data res with
  | zero => cases data <;> simp [decodeLoopChecked]
  | succ n ih =>
    cases data with
    | nil => simp [decodeLoopChecked]
    | cons b bs =>
      cases cur with
      | null => rw [decodeLoopChecked_null]; simp
      | node l r e =>
        rw [decodeLoopChecked_node]
        split
        · exact ih _ _ _ _
        · exact ih _ _ _ _

/-- The checked loop and `decodeLoop` run alike: forgetting the index, the
checked loop ends with the `cur` and `res` of `decodeLoop`, and runs out of
iterations exactly when `decodeLoop` does. -/
theorem decodeLoopChecked_erase {T : Type} (root : TreeNode T) (fuel i : Nat)
    (cur : TreeNode T) (data : Code) (res : List T) :
    (decodeLoop root fuel cur data res = none ∧
      decodeLoopChecked root fuel i cur data res = none) ∨
    ∃ j c r, decodeLoop root fuel cur data res = some (c, r) ∧
      decodeLoopChecked root fuel i cur data res = some (.value (j, c, r)) := by
  induction fuel generalizing i cur data res with
  | zero =>
    cases data with
    | nil => exact Or.inr ⟨i, cur, res, by simp [decodeLoop], by simp [decodeLoopChecked]⟩
    | cons b bs => exact Or.inl ⟨by simp [decodeLoop], by simp [decodeLoopChecked]⟩
  | succ n ih =>
    cases data with
    | nil => exact Or.inr ⟨i, cur, res, by simp [decodeLoop], by simp [decodeLoopChecked]⟩
    | cons b bs =>
      cases cur with
      | null =>
        exact Or.inr ⟨i, .null, res, by simp [decodeLoop], decodeLoopChecked_null _ _ _ _ _⟩
      | node l r e =>
        rw [decodeLoopChecked_node]
        by_cases hleaf : (TreeNode.node l r e).isLeaf = true
        · simp only [decodeLoop, hleaf, if_true]
          exact ih _ _ _ _
        · simp only [decodeLoop, hleaf]
          exact ih _ _ _ _

theorem decodeLoopChecked_walk {T : Type} (root : TreeNode T) (path : Code)
    (cur : TreeNode T) (rest : Code) (res : List T) (k i : Nat)
    (h : subtree cur path ≠ .null) :
    decodeLoopChecked root (path.length + k) i cur (path ++ rest) res =
      decodeLoopChecked root k (i + path.length) (subtree cur path) rest res := by
  induction path generalizing cur i with
  | nil => simp [subtree]
  | cons bit tail ih =>
    have hleaf := isLeaf_false_of_subtree cur bit tail h
    cases cur with
    | null => simp [subtree_null] at h
    | node l r e =>
      have hfuel : (bit :: tail).length + k = (tail.length + k) + 1 := by
        simp only [List.length_cons]; omega
      rw [hfuel, List.cons_append, decodeLoopChecked_node]
      simp only [hleaf]
      rw [ih _ (i + 1) h]
      have hidx : i + 1 + tail.length = i + (tail.length + 1) := by omega
      simp only [subtree, List.length_cons, hidx, Bool.false_eq_true, if_false]

theorem decodeLoopChecked_leaves {T : Type} (root : TreeNode T)
    (ms : List (Code × T)) (rest : Code) (res : List T) (k i : Nat)
    (hm : ∀ p ∈ ms, subtree root p.1 = .node .null .null p.2)
    (hrest : rest ≠ []) :
    decodeLoopChecked root ((ms.map Prod.fst).flatten.length + ms.length + k) i root
        ((ms.map Prod.fst).flatten ++ rest) res =
      decodeLoopChecked root k (i + (ms.map Prod.fst).flatten.length) root rest
        (res ++ ms.map Prod.snd) := by
  induction ms generalizing res i with
  | nil => simp
  | cons p tail ih =>
    have hp := hm p (List.mem_cons_self _ _)
    have hfuel : (((p :: tail).map Prod.fst).flatten.length + (p :: tail).length + k) =
        p.1.length + (((tail.map Prod.fst).flatten.length + tail.length + k) + 1) := by
      simp only [List.map_cons, List.flatten_cons, List.length_append, List.length_cons]
      omega
    have hdata : ((p :: tail).map Prod.fst).flatten ++ rest =
        p.1 ++ ((tail.map Prod.fst).flatten ++ rest) := by
      simp
    rw [hfuel, hdata, decodeLoopChecked_walk root p.1 root _ res _ i (by rw [hp]; simp), hp]
    obtain ⟨b, bs, hbs⟩ : ∃ b bs, (tail.map Prod.fst).flatten ++ rest = b :: bs := by
      cases hh : (tail.map Prod.fst).flatten ++ rest with
      | nil => exact absurd (List.append_eq_nil.1 hh).2 hrest
      | cons b bs => exact ⟨b, bs, rfl⟩
    rw [hbs, decodeLoopChecked_node]
    simp only [TreeNode.isLeaf, TreeNode.isNull, Bool.and_self, if_true]
    rw [← hbs, ih (res ++ [p.2]) (i + p.1.length)
      (fun y hy => hm y (List.mem_cons_of_mem _ hy))]
    simp only [List.map_cons, List.flatten_cons, List.length_append, List.append_assoc,
      List.singleton_append, Nat.add_assoc]

theorem decodeFinishChecked_returned {T : Type} (i : Nat) (cur : TreeNode T)
    (res : List T) :
    (decodeFinishChecked (i, cur, res)).returned = some (decodeFinish (cur, res)) := by
  cases cur with
  | null => rfl
  | node l r e => cases l <;> cases r <;> rfl

/-- The checked `decode` and `decode` agree on every table and input: the
checked run never faults, it ends exactly when `decode` ends, and it returns
the same vector and the same `*ok`. -/
theorem decodeChecked_returned {T : Type} (fuel : Nat) (t : HuffmanTable T)
    (data : Code) :
    (decodeChecked fuel t data).map Checked.returned =
      (decode fuel t data).map some := by
  unfold decodeChecked decode
  cases hroot : t.root_ with
  | null => rfl
  | node l r e =>
    simp only [TreeNode.isNull, Bool.false_eq_true, if_false]
    rcases decodeLoopChecked_erase (.node l r e) fuel 0 (.node l r e) data []
      with ⟨h1, h2⟩ | ⟨j, c, r2, h1, h2⟩
    · rw [h1, h2]; rfl
    · rw [h1, h2]
      simp [decodeFinishChecked_returned]

/-- C20: for every trie with a root, on the paths of leaves holding
`e1, .., en` followed by a path `q` to a node that is not a leaf and by a bit
`b` for which that node has no child, `decode` returns exactly `[e1, .., en]`
and sets `*ok` to `false`, whatever bits `rest` follow. The run with checked
dereferences does not fault, so no missing node is dereferenced, and it leaves
the loop with `i` just past the bit `b`: the loop stops at that bit and reads
none of the bits of `rest`. -/
theorem decode_falls_off {T : Type} (t : HuffmanTable T) (ms : List (Code × T))
    (hms : ∀ p ∈ ms, subtree t.root_ p.1 = .node .null .null p.2)
    (q : Code) (b : Bool) (rest : Code)
    (hq : subtree t.root_ q ≠ .null)
    (hinner : (subtree t.root_ q).isLeaf = false)
    (hmiss : (subtree t.root_ q).child b = .null)
    (fuel : Nat)
    (hfuel : 2 * ((ms.map Prod.fst).flatten ++ (q ++ b :: rest)).length ≤ fuel) :
    decode fuel t ((ms.map Prod.fst).flatten ++ (q ++ b :: rest)) =
      some (ms.map Prod.snd, false) ∧
    decodeChecked fuel t ((ms.map Prod.fst).flatten ++ (q ++ b :: rest)) =
      some (.value (ms.map Prod.snd, false,
        (ms.map Prod.fst).flatten.length + q.length + 1)) := by
  refine ⟨decode_off_trie_result t ms hms q b rest hq hinner hmiss fuel hfuel, ?_⟩
  have hroot : t.root_ ≠ .null := fun h0 => hq (by rw [h0, subtree_null])
  have hrootleaf : t.root_.isLeaf = false := by
    cases q with
    | nil => exact hinner
    | cons b2 qs => exact isLeaf_false_of_subtree _ b2 qs hq
  have hpaths : ∀ p ∈ ms, Prod.fst p ≠ [] := by
    intro p hp h0
    have := hms p hp
    rw [h0] at this
    simp only [subtree] at this
    rw [this] at hrootleaf
    simp [TreeNode.isLeaf, TreeNode.isNull] at hrootleaf
  have hlen := length_le_flatten Prod.fst ms hpaths
  have hstep : decodeLoopChecked t.root_ (q.length + 2)
      (0 + (ms.map Prod.fst).flatten.length) t.root_ (q ++ b :: rest)
      ([] ++ ms.map Prod.snd) =
        some (.value ((ms.map Prod.fst).flatten.length + q.length + 1, .null,
          ms.map Prod.snd)) := by
    rw [decodeLoopChecked_walk t.root_ q t.root_ (b :: rest) _ 2 _ hq]
    cases hsub : subtree t.root_ q with
    | null => exact absurd hsub hq
    | node l r e =>
      rw [hsub] at hinner hmiss
      rw [decodeLoopChecked_node]
      simp only [hinner, hmiss]
      rw [decodeLoopChecked_null]
      simp
  have hrun : decodeLoopChecked t.root_
      ((ms.map Prod.fst).flatten.length + ms.length + (q.length + 2)) 0 t.root_
      ((ms.map Prod.fst).flatten ++ (q ++ b :: rest)) [] =
        some (.value ((ms.map Prod.fst).flatten.length + q.length + 1, .null,
          ms.map Prod.snd)) := by
    rw [decodeLoopChecked_leaves t.root_ ms (q ++ b :: rest) [] _ 0 hms (by simp), hstep]
  have hle : (ms.map Prod.fst).flatten.length + ms.length + (q.length + 2) ≤ fuel := by
    simp only [List.length_append, List.length_cons] at hfuel
    omega
  have hnn : t.root_.isNull = false := by
    cases hr : t.root_ with
    | null => exact absurd hr hroot
    | node l r e => rfl
  unfold decodeChecked
  rw [hnn, decodeLoopChecked_mono _ _ _ _ _ _ _ _ hrun hle]
  simp [decodeFinishChecked, TreeNode.isNull]

/-- C20 on the table built by `addElement (3, "10")` and `addElement (4, "11")`,
whose root has no left child: the bits `10 0 1` are the codeword of 3 followed
by a bit for which the root has no child and by one more bit, which is not
read: the loop is left with `i == 3`. -/
theorem decode_falls_off_witness :
    decode 8 (addAll HuffmanTable.empty [(3, [true, false]), (4, [true, true])])
        ([true, false] ++ ([] ++ false :: [true])) =
      some ([3], false) ∧
    decodeChecked 8 (addAll HuffmanTable.empty [(3, [true, false]), (4, [true, true])])
        ([true, false] ++ ([] ++ false :: [true])) =
      some (.value ([3], false, 3)) :=
  decode_falls_off (addAll HuffmanTable.empty [(3, [true, false]), (4, [true, true])])
    [([true, false], 3)] (by decide) [] false [true] (by decide) (by decide)
    (by decide) 8 (by decide)

end Huffman
